import Mathlib

/-!
# Verification of the `iterators` concurrency core

This file gives a shallow embedding, as explicit transition systems, of the
concurrency core of the repository (the `pubsub` bounded channel, the
concurrency-limited `map`, the fan-in `concat`/race multiplexer, the second
`pubsub` revision with error funnelling and the `skip` sentinel, and the
`dispatch` branch router), together with theorems settling the specification
claims about them.

The JavaScript runtime is single-threaded with cooperative (microtask)
concurrency: every atomic step of the program runs between two `await`
suspension points.  Each model below therefore is a deterministic step
function `step : State -> Event -> Option State` where the *event* says which
suspended computation the event loop runs next (a new `publish`/`consume`
call, the settlement of a pending value promise, the resumption of a woken
producer, one step of a generator, ...).  A schedule is a list of events;
`run` folds it from the initial state.  Safety claims are statements about
all states reachable by any schedule; counterexamples are concrete schedules,
evaluated by the kernel.

JavaScript `undefined` is modelled as `Option.none`: the channel stores
values of type `Option β`, faithfully reproducing the `result !== undefined`
test inside `consume`, which cannot distinguish "the buffer was empty" from
"the popped value was `undefined`".
-/

namespace Chan

/-- Events of the bounded channel of `src/src/lib/pubsub.ts`.
`pub v` is a call `publish(v)` (the admission check and, when the capacity is
reached, the registration in `waitingProducers` are synchronous).
`settle id` is the settlement of the value promise of submission `id`
(the body of `Promise.resolve(value).then(...)`).
`consume` is a call `consume()` (synchronous: it either pops the buffer or
registers a waiting consumer).
`resume` is the event loop running the continuation of the longest-waiting
woken producer (the code after `await wait()` inside `publish`). -/
inductive Ev (β : Type) where
  | pub (v : Option β)
  | settle (id : Nat)
  | consume
  | resume
  deriving DecidableEq

/-- State of one `pubsub` channel, with ghost history fields.

Live fields (each mirrors one variable of `pubsub`):
* `pending`   — `waitingProducers`: blocked `publish` calls, FIFO, each holding
  the value of its suspended frame; nothing of it is in `producing` yet.
* `woken`     — producers whose `wait()` resolver was called by `notify` but
  whose continuation has not run yet (it is queued as a microtask).
* `inflight`  — submissions in `producing` whose value promise has not settled.
* `buffer`    — settled submissions parked in `buffer`; per the source their
  promise is deleted from `producing` only inside the buffered thunk, i.e. at
  pop time, so `producing.size` counts `inflight` *and* `buffer`.
* `consumers` — `consuming`: waiting consumers, FIFO, identified by call ids.

Ghost fields (recording history, never read by the live transitions):
`vals` (value of every `publish` call), `returned` (publish calls whose
returned future has resolved), `delivered` (consumer id, submission id, value
of every value handed to a consumer), `dropped` (submissions popped from the
buffer whose `undefined` value made `consume` discard them), `settled`
(submissions whose value promise has settled), `bufEntered`/`bufPopped`
(buffer enter and pop order). -/
structure St (β : Type) where
  nextId : Nat
  nextCid : Nat
  pending : List (Nat × Option β)
  woken : List (Nat × Option β)
  inflight : List (Nat × Option β)
  buffer : List (Nat × Option β)
  consumers : List Nat
  vals : List (Nat × Option β)
  returned : List Nat
  delivered : List (Nat × Nat × Option β)
  dropped : List Nat
  settled : List Nat
  bufEntered : List Nat
  bufPopped : List Nat
  deriving DecidableEq

/-- The initial (empty) channel state. -/
def init (β : Type) : St β :=
  ⟨0, 0, [], [], [], [], [], [], [], [], [], [], [], []⟩

/-- Size of the `producing` set: unsettled submissions plus buffered ones
(the source deletes a buffered promise from `producing` only when its thunk
is popped). -/
def producingSize (s : St β) : Nat := s.inflight.length + s.buffer.length

/-- The admission test `producing.size >= bufferCapacity`; a capacity of
`none` models the default `Infinity`, for which the test is always false. -/
def capReached (cap : Option Nat) (s : St β) : Bool :=
  match cap with
  | none => false
  | some c => decide (c ≤ producingSize s)

/-- The effect of `notify(waitingProducers)`: take the first waiting producer
and call its resolver.  In the faithful model (`fused = false`) this only
*queues* the continuation (moving the producer to `woken`); the continuation
itself runs at a later `resume` event and only then re-registers the
submission in `producing` — without re-checking the capacity.  With
`fused = true` the wakeup and the resumption are taken as one atomic step. -/
def wakeOne (fused : Bool) (s : St β) : St β :=
  match s.pending with
  | [] => s
  | p :: ps =>
      if fused then
        { s with pending := ps, inflight := s.inflight ++ [p],
                 returned := s.returned ++ [p.1] }
      else
        { s with pending := ps, woken := s.woken ++ [p] }

/-- Lookup the value of a submission id in an association list (generic in
the value type, reused by the later channel revisions). -/
def lookupId {γ : Type} : List (Nat × γ) → Nat → Option γ
  | [], _ => none
  | (i, v) :: t, id => if i = id then some v else lookupId t id

/-- Remove the first entry with the given submission id. -/
def eraseId {γ : Type} : List (Nat × γ) → Nat → List (Nat × γ)
  | [], _ => []
  | (i, v) :: t, id => if i = id then t else (i, v) :: eraseId t id

/-- One atomic step of the channel.  Returns `none` when the event is not
enabled (settling an unknown id, resuming with nobody woken). -/
def step (fused : Bool) (cap : Option Nat) (s : St β) : Ev β → Option (St β)
  | .pub v =>
      -- publish(value): check `producing.size >= bufferCapacity` once.
      let id := s.nextId
      let s1 := { s with nextId := id + 1, vals := s.vals ++ [(id, v)] }
      if capReached cap s then
        -- blocked: `await wait()` registers in waitingProducers, FIFO.
        some { s1 with pending := s1.pending ++ [(id, v)] }
      else
        -- admitted: `producing.add(promise)`; the async body completes,
        -- so the returned future resolves (without waiting for hand-off).
        some { s1 with inflight := s1.inflight ++ [(id, v)],
                       returned := s1.returned ++ [id] }
  | .settle id =>
      match lookupId s.inflight id with
      | none => none
      | some v =>
          let s1 := { s with inflight := eraseId s.inflight id,
                             settled := s.settled ++ [id] }
          match s1.consumers with
          | c :: cs =>
              -- a consumer is waiting: producing.delete; notify(consuming,
              -- value); notify(waitingProducers).
              some (wakeOne fused
                { s1 with consumers := cs,
                          delivered := s1.delivered ++ [(c, id, v)] })
          | [] =>
              -- value arrived ahead of any consumer: park a thunk in the
              -- buffer; the promise stays in `producing` until the pop.
              some { s1 with buffer := s1.buffer ++ [(id, v)],
                             bufEntered := s1.bufEntered ++ [id] }
  | .consume =>
      let cid := s.nextCid
      let s1 := { s with nextCid := cid + 1 }
      match s1.buffer with
      | (id, v) :: bs =>
          -- notify(buffer) pops the oldest thunk, which deletes the promise
          -- from producing, resolves the settle continuation and wakes one
          -- waiting producer; then `if (result !== undefined)`.
          let s2 := wakeOne fused
            { s1 with buffer := bs, bufPopped := s1.bufPopped ++ [id] }
          match v with
          | some b =>
              some { s2 with delivered := s2.delivered ++ [(cid, id, some b)] }
          | none =>
              -- the popped value *is* `undefined`: the test conflates it
              -- with an empty buffer, so the entry is discarded and the
              -- call falls through to registering a waiting consumer.
              some { s2 with consumers := s2.consumers ++ [cid],
                             dropped := s2.dropped ++ [id] }
      | [] =>
          some { s1 with consumers := s1.consumers ++ [cid] }
  | .resume =>
      if fused then none
      else
        match s.woken with
        | [] => none
        | (id, v) :: ws =>
            -- the continuation after `await wait()` runs: it creates the
            -- promise and adds it to producing with no capacity re-check,
            -- and the publish future resolves.
            some { s with woken := ws, inflight := s.inflight ++ [(id, v)],
                          returned := s.returned ++ [id] }

/-- Run a schedule from the empty channel. -/
def run (fused : Bool) (cap : Option Nat) (es : List (Ev β)) : Option (St β) :=
  es.foldlM (step fused cap) (init β)

/-- Projection helpers. -/
def pendingIds (s : St β) : List Nat := s.pending.map Prod.fst

def wokenIds (s : St β) : List Nat := s.woken.map Prod.fst

def inflightIds (s : St β) : List Nat := s.inflight.map Prod.fst

def bufferIds (s : St β) : List Nat := s.buffer.map Prod.fst

def deliveredSubIds (s : St β) : List Nat := s.delivered.map (fun t => t.2.1)

def deliveredCids (s : St β) : List Nat := s.delivered.map Prod.fst

def calledIds (s : St β) : List Nat := s.vals.map Prod.fst

end Chan
namespace MapC

/-!
Model of `_mapConcurrently` from `src/src/map.ts`:

```
async function* _mapConcurrently(input, iteratorFn, concurrency) {
  const { publish, consume, producing } = pubsub<R>();
  for await (const item of input) {
    publish(iteratorFn(item, input));
    if (producing.size >= concurrency) { yield await consume(); }
  }
  while (producing.size) { yield await consume(); }
}
```

The channel is created with no capacity (`pubsub<R>()`, i.e. `Infinity`), so
`publish` never blocks and the `waitingProducers` machinery is dead code on
this path; the generator is the only consumer, so `consuming` holds at most
one resolver (whether the generator is parked in `await consume()`).  The
generator's atomic segments (between `for await` pulls, `await consume()`
and `yield` suspension points) are one event; the settlement of each
published transform result is another, scheduled arbitrarily. -/

/-- Control position of the generator. -/
inductive Phase where
  | loopTop
  | drainTop
  | waitVal (toLoop : Bool)
  | finished
  deriving DecidableEq

/-- State of the `_mapConcurrently` generator together with its private
channel.  `rest` is the unread suffix of the input; `inflight`/`buffer` are
the channel stations (no `pending`/`woken`: capacity is infinite);
`output` is the list of values yielded so far; `dropped` records values
popped from the buffer and discarded by the `result !== undefined` test. -/
structure St (α β : Type) where
  rest : List α
  inflight : List (Nat × Option β)
  buffer : List (Nat × Option β)
  nextId : Nat
  phase : Phase
  output : List (Option β)
  dropped : List (Option β)
  deriving DecidableEq

def producingSize (s : St α β) : Nat := s.inflight.length + s.buffer.length

/-- The body of `consume()` as called from `yield await consume()`: pop the
oldest buffered thunk if any (the pop deletes the promise from `producing`);
a non-`undefined` result is yielded at once, an `undefined` result (or an
empty buffer) leaves the generator registered as the waiting consumer. -/
def consumeStep (s : St α β) (toLoop : Bool) : St α β :=
  match s.buffer with
  | (_, v) :: bs =>
      match v with
      | some b =>
          { s with buffer := bs, output := s.output ++ [some b],
                   phase := if toLoop then .loopTop else .drainTop }
      | none =>
          { s with buffer := bs, dropped := s.dropped ++ [none],
                   phase := .waitVal toLoop }
  | [] => { s with phase := .waitVal toLoop }

/-- Scheduler events: `gen` runs the generator from its current suspension
point to the next one; `settle id` settles the transform promise of
submission `id`. -/
inductive Ev where
  | gen
  | settle (id : Nat)
  deriving DecidableEq

/-- One atomic step of the composed system. -/
def step (f : α → Option β) (N : Nat) (s : St α β) : Ev → Option (St α β)
  | .gen =>
      match s.phase with
      | .loopTop =>
          match s.rest with
          | i :: r =>
              -- `for await` pulls the item, `publish(iteratorFn(item, input))`
              -- registers the promise synchronously (no capacity check can
              -- block), then `if (producing.size >= concurrency)`.
              let s1 := { s with rest := r, nextId := s.nextId + 1,
                                 inflight := s.inflight ++ [(s.nextId, f i)] }
              if N ≤ producingSize s1 then some (consumeStep s1 true)
              else some { s1 with phase := .loopTop }
          | [] => some { s with phase := .drainTop }
      | .drainTop =>
          if producingSize s = 0 then some { s with phase := .finished }
          else some (consumeStep s false)
      | .waitVal _ => none
      | .finished => none
  | .settle id =>
      match Chan.lookupId s.inflight id with
      | none => none
      | some v =>
          match s.phase with
          | .waitVal toLoop =>
              -- the generator is the waiting consumer: producing.delete,
              -- notify(consuming, value); the generator resumes and yields.
              some { s with inflight := Chan.eraseId s.inflight id,
                            output := s.output ++ [v],
                            phase := if toLoop then .loopTop else .drainTop }
          | _ =>
              -- no waiting consumer: park the thunk in the buffer.
              some { s with inflight := Chan.eraseId s.inflight id,
                            buffer := s.buffer ++ [(id, v)] }

def init (α β : Type) (input : List α) : St α β :=
  ⟨input, [], [], 0, .loopTop, [], []⟩

def run (input : List α) (f : α → Option β) (N : Nat) (es : List Ev) :
    Option (St α β) :=
  es.foldlM (step f N) (init α β input)

end MapC
namespace ConcatSeq

/-!
Model of the `concat` entry point and of `_concat` (the sequential path) from
`src/src/race.ts` (also embedded in the `src/src/lib/pubsub.ts` bundle):

```
export function concat(inputs, inputConcurrency?, outputConcurrency?) {
  if (typeof inputs === 'number') { ...curried... }
  else if ((inputConcurrency === 1 && outputConcurrency === 1)
           || inputConcurrency == undefined) {
    return _concat(inputs);
  } else {
    return _concatConcurrently(inputConcurrency, outputConcurrency || Infinity, inputs);
  }
}
async function* _concat(iterators) {
  for await (const iterator of iterators)
    for await (const item of iterator) yield item;
}
```

Optional number parameters are `Option Nat` with `none` for `undefined`. -/

/-- Which implementation the non-curried `concat` call selects. -/
inductive Choice where
  | sequential
  | concurrent
  deriving DecidableEq

/-- The branch condition of `concat` for a non-numeric first argument:
`(inputConcurrency === 1 && outputConcurrency === 1) ||
inputConcurrency == undefined`. -/
def concatChoice (ic oc : Option Nat) : Choice :=
  if (ic = some 1 ∧ oc = some 1) ∨ ic = none then .sequential
  else .concurrent

/-- The sequential path `_concat`: nested iteration, yielding every item of
source 1, then every item of source 2, and so on. -/
def concatSeq {γ : Type} : List (List γ) → List γ
  | [] => []
  | l :: ls => l ++ concatSeq ls

end ConcatSeq

namespace DispatchSrc

/-!
Evidence model for the `dispatch` branch router of `src/src/dispatch.ts`.

`_dispatch` destructures the object returned by `pubsub` (imported from
`./lib/pubsub`):

```
const { publish, consume, producing, wait, output: loop, end } =
  pubsub<Promise<T>>(concurrency);
```

but the `pubsub` of `src/src/lib/pubsub.ts` returns only
`{ publish, consume, producing, consuming, buffer, wait }`.  JavaScript
destructuring binds a missing member to `undefined`, and `_dispatch` then
calls both: `end()` inside the consumer loop finalizer and `loop(...)` as
its return value — each a TypeError on `undefined`.  The router therefore
throws before emitting a single item.  (The `part_006` revision of
`_dispatch` is an async generator whose body never yields and instead
`return`s the `map(...)` pipeline; iterating it also produces no items.) -/

/-- The member names of the object returned by `pubsub` in
`src/src/lib/pubsub.ts` (its `return` statement). -/
def pubsubExports : List String :=
  ["publish", "consume", "producing", "consuming", "buffer", "wait"]

/-- JavaScript destructuring of one member: a name that is not a member of
the record binds to `undefined` (`none`). -/
def memberOrUndefined (name : String) : Option String :=
  if name ∈ pubsubExports then some name else none

/-- The fate of a `_dispatch` call on a source: it calls the destructured
`output` (bound as `loop`) and `end`; if either is `undefined` the call
raises a TypeError instead of yielding the source items back. -/
def dispatchRun (items : List Nat) : Except String (List Nat) :=
  match memberOrUndefined "output", memberOrUndefined "end" with
  | some _, some _ => .ok items
  | _, _ => .error "TypeError: not a function"

end DispatchSrc

namespace Chan2

/-!
Model of the second `pubsub` revision of `src/unnamed/part_003` (the one
whose `publish` settles values through a sentinel check):

```
const promise = Promise.resolve(value).then(async value => {
  if (value == 'skip') { producing.delete(promise); return value; }
  if (consuming.size === 0) { ...buffer thunk (delete at pop, notify)... }
  else { producing.delete(promise); notify(consuming, value);
         notify(waitingProducers); }
  return value;
});
promise.catch(e => { onReadError(e); producing.delete(promise); });
producing.add(promise);
```

Values are `DV β` (`skip` is the sentinel string, `dval b` any other value;
these are never `undefined`, so `consume`'s `result !== undefined` test
always passes on a pop).  A submission may also settle by *rejecting*
(`Except.error e`): the `.catch` records the error (`onReadError`, a no-op
while no output loop is attached) and frees the in-flight slot. -/

/-- A channel value: the `'skip'` sentinel or an ordinary value. -/
inductive DV (β : Type) where
  | skip
  | dval (b : β)
  deriving DecidableEq

/-- Scheduler events for the standalone revised channel. -/
inductive Ev (β : Type) where
  | pub (x : Except String (DV β))
  | settle (id : Nat)
  | consume
  | resume

/-- State of the revised channel.  `pending`/`woken`/`inflight` carry the
submission outcome (`Except`); `buffer` holds settled values; ghosts:
`delivered` (consumer id, submission id, value), `skipDropped` (submissions
settled through the sentinel branch), `errored` (rejected submissions). -/
structure St (β : Type) where
  nextId : Nat
  nextCid : Nat
  pending : List (Nat × Except String (DV β))
  woken : List (Nat × Except String (DV β))
  inflight : List (Nat × Except String (DV β))
  buffer : List (Nat × DV β)
  consumers : List Nat
  delivered : List (Nat × Nat × DV β)
  skipDropped : List Nat
  errored : List (Nat × String)

def init (β : Type) : St β := ⟨0, 0, [], [], [], [], [], [], [], []⟩

def producingSize (s : St β) : Nat := s.inflight.length + s.buffer.length

def capReached (cap : Option Nat) (s : St β) : Bool :=
  match cap with
  | none => false
  | some c => decide (c ≤ producingSize s)

/-- `notify(waitingProducers)` (unfused: the continuation runs at `resume`). -/
def wakeOne (s : St β) : St β :=
  match s.pending with
  | [] => s
  | p :: ps => { s with pending := ps, woken := s.woken ++ [p] }

/-- One atomic step of the revised channel. -/
def step [DecidableEq β] (cap : Option Nat) (s : St β) : Ev β → Option (St β)
  | .pub x =>
      let id := s.nextId
      let s1 := { s with nextId := id + 1 }
      if capReached cap s then
        some { s1 with pending := s1.pending ++ [(id, x)] }
      else
        some { s1 with inflight := s1.inflight ++ [(id, x)] }
  | .settle id =>
      match Chan.lookupId s.inflight id with
      | none => none
      | some x =>
          let s1 := { s with inflight := Chan.eraseId s.inflight id }
          match x with
          | .error e =>
              -- the promise rejects: catch → onReadError(e) (a no-op on the
              -- bare channel), producing.delete.
              some { s1 with errored := s1.errored ++ [(id, e)] }
          | .ok v =>
              if v = DV.skip then
                -- sentinel: delete from producing and return; no consumer
                -- hand-off, no buffering, no waitingProducers notify.
                some { s1 with skipDropped := s1.skipDropped ++ [id] }
              else
                match s1.consumers with
                | c :: cs =>
                    some (wakeOne
                      { s1 with consumers := cs,
                                delivered := s1.delivered ++ [(c, id, v)] })
                | [] =>
                    some { s1 with buffer := s1.buffer ++ [(id, v)] }
  | .consume =>
      let cid := s.nextCid
      let s1 := { s with nextCid := cid + 1 }
      match s1.buffer with
      | (id, v) :: bs =>
          -- values are never `undefined`, so the popped result is returned.
          some (wakeOne { s1 with buffer := bs,
                                  delivered := s1.delivered ++ [(cid, id, v)] })
      | [] => some { s1 with consumers := s1.consumers ++ [cid] }
  | .resume =>
      match s.woken with
      | [] => none
      | (id, x) :: ws =>
          some { s with woken := ws, inflight := s.inflight ++ [(id, x)] }

def run [DecidableEq β] (cap : Option Nat) (es : List (Ev β)) : Option (St β) :=
  es.foldlM (step cap) (init β)

end Chan2

namespace MapErr

/-!
Model of the concurrency-limited transform of `src/unnamed/part_004` built on
the second `pubsub` revision of `src/unnamed/part_003`: `_mapConcurrently`
returns `output({ onStart: () => input(iterator, iteratorFn) })`, so the
composite system is the channel, the `input` pump

```
try { for await (const item of iterator) {
        if (producing.size >= bufferCapacity) { await wait(); }
        publish(transform(item, i++, iterator)); } }
catch (e) { onReadError(e); } finally { onReadComplete(); }
```

and the `output` loop

```
while (true) {
  var valueReady = consume();
  const result = await new Promise((accept, reject) => {
    _onReadError = reject; _onReadComplete = accept;
    Promise.resolve(valueReady).then(accept, reject); });
  if (result === undefined) { if (producing.size) { yield valueReady; } }
  else { yield result; }
  if (!producing.size && isDone) break; }
```

The source items are pre-composed with the transform into `jobs`, a list of
`Except String (DV β)`: `.ok v` is a transform result that resolves, and
`.error e` one whose promise rejects.  The `_onReadError`/`_onReadComplete`
slots are live exactly while the output loop is parked at its outer `await`
and that promise is unsettled; a rejection or the completion signal landing
on a stale (or already settled) slot is a no-op and the event is lost — the
phases below track precisely this. -/

open Chan2 (DV)

/-- An entry of `waitingProducers`: a `publish` call blocked at its own
`await wait()` (already holding its submission id), or the `input` pump
blocked at its capacity check (holding the current job and the unread
rest). -/
inductive Waiter (β : Type) where
  | pubW (id : Nat) (x : Except String (DV β))
  | inputW (x : Except String (DV β)) (rest : List (Except String (DV β)))

/-- Position of the `input` pump. -/
inductive InP (β : Type) where
  | pulling (rest : List (Except String (DV β)))
  | blocked
  | doneInp

/-- Position of the `output` generator.
`preLoop`: not yet started (slots stale).
`atAwait got`: parked at the outer `await`; the slots are live and the outer
promise is unsettled; `got = some v` means `valueReady` already resolved to
`v` and its `accept` is queued.
`gotUndef held`: the completion signal settled the outer promise with
`undefined`; `held` is the state of `valueReady` (popped/delivered value or
still pending).
`awaitingYieldVal`: in the `result === undefined` branch with
`producing.size > 0`, implicitly awaiting the still-pending `valueReady`
inside `yield valueReady` (outer promise settled: later errors are lost).
`postYield`: parked at the `yield`, slots stale.
`completed`/`failed e`: the generator finished or threw. -/
inductive OutP (β : Type) where
  | preLoop
  | atAwait (got : Option (DV β))
  | gotUndef (held : Option (DV β))
  | awaitingYieldVal
  | postYield
  | completed
  | failed (e : String)

/-- Whether the generator is registered in `consuming`. -/
def consumerRegistered : OutP β → Bool
  | .atAwait none => true
  | .awaitingYieldVal => true
  | .gotUndef none => true
  | _ => false

/-- State of the composite transform. -/
structure St (β : Type) where
  nextId : Nat
  pending : List (Waiter β)
  woken : List (Waiter β)
  inflight : List (Nat × Except String (DV β))
  buffer : List (Nat × DV β)
  isDone : Bool
  inp : InP β
  outp : OutP β
  output : List (DV β)
  errored : List (Nat × String)

def producingSize (s : St β) : Nat := s.inflight.length + s.buffer.length

def capReached (cap : Option Nat) (s : St β) : Bool :=
  match cap with
  | none => false
  | some c => decide (c ≤ producingSize s)

def wakeOne (s : St β) : St β :=
  match s.pending with
  | [] => s
  | p :: ps => { s with pending := ps, woken := s.woken ++ [p] }

/-- The synchronous part of a `publish(x)` call: blocked calls park in
`waitingProducers`, admitted ones register the promise in `producing`. -/
def publishCall (cap : Option Nat) (s : St β) (x : Except String (DV β)) : St β :=
  if capReached cap s then
    { s with nextId := s.nextId + 1, pending := s.pending ++ [.pubW s.nextId x] }
  else
    { s with nextId := s.nextId + 1, inflight := s.inflight ++ [(s.nextId, x)] }

/-- The loop head of `output`: `valueReady = consume()` plus the assignment
of live `_onReadError`/`_onReadComplete` slots.  A non-empty buffer is popped
at once (deleting from producing and notifying a waiting producer); an empty
buffer registers the generator as the waiting consumer. -/
def loopStep (s : St β) : St β :=
  match s.buffer with
  | (_, v) :: bs => wakeOne { s with buffer := bs, outp := .atAwait (some v) }
  | [] => { s with outp := .atAwait none }

/-- Scheduler events of the composite system. -/
inductive MEv where
  | ipull
  | resumeW
  | settle (id : Nat)
  | ostart
  | oaccept
  | onext
  | oacceptUndef
  deriving DecidableEq

/-- One atomic step of the composite system. -/
def step [DecidableEq β] (cap : Option Nat) (s : St β) : MEv → Option (St β)
  | .ipull =>
      match s.inp with
      | .pulling (j :: rest) =>
          if capReached cap s then
            some { s with pending := s.pending ++ [.inputW j rest], inp := .blocked }
          else
            some { publishCall cap s j with inp := .pulling rest }
      | .pulling [] =>
          -- finally: onReadComplete(): isDone = true, then the completion
          -- signal goes to the current _onReadComplete slot; it settles the
          -- outer promise only while the generator is parked at a live,
          -- unsettled await.
          let s1 := { s with inp := .doneInp, isDone := true }
          match s1.outp with
          | .atAwait g => some { s1 with outp := .gotUndef g }
          | _ => some s1
      | _ => none
  | .resumeW =>
      match s.woken with
      | [] => none
      | .pubW id x :: ws =>
          -- the blocked publish resumes: producing.add with no re-check.
          some { s with woken := ws, inflight := s.inflight ++ [(id, x)] }
      | .inputW x rest :: ws =>
          -- the blocked input pump resumes: publish(transform(item)), then
          -- continue pulling.
          some { publishCall cap { s with woken := ws } x with inp := .pulling rest }
  | .settle id =>
      match Chan.lookupId s.inflight id with
      | none => none
      | some x =>
          let s1 := { s with inflight := Chan.eraseId s.inflight id }
          match x with
          | .error e =>
              -- catch: onReadError(e) → _onReadError(e); the rejection wins
              -- only while the generator holds a live unsettled await.
              let s2 := { s1 with errored := s1.errored ++ [(id, e)] }
              match s2.outp with
              | .atAwait _ => some { s2 with outp := .failed e }
              | _ => some s2
          | .ok v =>
              if v = DV.skip then some s1
              else if consumerRegistered s.outp then
                let s2 := wakeOne s1
                match s2.outp with
                | .atAwait none => some { s2 with outp := .atAwait (some v) }
                | .awaitingYieldVal =>
                    some { s2 with output := s2.output ++ [v], outp := .postYield }
                | .gotUndef none => some { s2 with outp := .gotUndef (some v) }
                | _ => none
              else
                some { s1 with buffer := s1.buffer ++ [(id, v)] }
  | .ostart =>
      match s.outp with
      | .preLoop => some (loopStep s)
      | _ => none
  | .oaccept =>
      match s.outp with
      | .atAwait (some v) =>
          some { s with output := s.output ++ [v], outp := .postYield }
      | _ => none
  | .onext =>
      match s.outp with
      | .postYield =>
          if producingSize s = 0 ∧ s.isDone then some { s with outp := .completed }
          else some (loopStep s)
      | _ => none
  | .oacceptUndef =>
      match s.outp with
      | .gotUndef held =>
          if 0 < producingSize s then
            match held with
            | some v => some { s with output := s.output ++ [v], outp := .postYield }
            | none => some { s with outp := .awaitingYieldVal }
          else some { s with outp := .completed }
      | _ => none

def init (β : Type) (jobs : List (Except String (DV β))) : St β :=
  ⟨0, [], [], [], [], false, .pulling jobs, .preLoop, [], []⟩

def run [DecidableEq β] (cap : Option Nat) (jobs : List (Except String (DV β)))
    (es : List MEv) : Option (St β) :=
  es.foldlM (step cap) (init β jobs)

end MapErr

namespace Race

/-!
Model of `_concatConcurrently` from `src/src/race.ts` (fan-in multiplexer):

```
const { publish, consume, producing } = pubsub<R>(outputConcurrency);
let inputsExhausted = false;
const counters = new Map(); const active = new Set();
function countBufferedValues(it, diff) {
  const updated = (counters.get(it) || 0) + diff;
  if (updated == 0) counters.delete(it); else counters.set(it, updated);
  return updated; }
function countActiveIterators() {
  let count = counters.size;
  for (const it of active) if (!counters.has(it)) count += 1;
  return count; }
let onNextIterator;
async function readIterator(it) {
  try { active.add(it);
        for await (const item of it) {
          countBufferedValues(it, +1);
          await publish({ item, it }); } }
  finally { active.delete(it); nextIteratorIfNeeded(it); } }
function nextIteratorIfNeeded(it) {
  if (onNextIterator && !active.has(it) && countBufferedValues(it, 0) == 0
      && producing.size < outputConcurrency) onNextIterator(); }
(async () => { try {
    for await (const it of iterators) {
      if (countActiveIterators() >= inputConcurrency)
        await new Promise(r => { onNextIterator = r; });
      readIterator(it); } }
  finally { inputsExhausted = true; } })();
while (!(inputsExhausted && active.size === 0 && counters.size === 0
         && producing.size === 0)) {
  const { item, iterator } = await consume();
  countBufferedValues(iterator, -1);
  nextIteratorIfNeeded(iterator);
  yield item; }
```

Sources are indexed by their position in the outer list.  `counters` is an
association list with the Map semantics of `countBufferedValues` (delete on
zero, integer values).  The single `onNextIterator` slot is the intake
state: calling a resolver whose promise already resolved is a no-op, so a
fire matters only in the `waiting` state.  A pump blocked inside
`await publish` sits in the channel's `waitingProducers` with its
continuation (its source index, the item, and the rest of its sequence). -/

/-- `map.set k v` with Map insertion-order semantics (replace in place,
append when absent); also used for updating a pump entry. -/
def setEntry {γ : Type} : List (Nat × γ) → Nat → γ → List (Nat × γ)
  | [], k, v => [(k, v)]
  | (i, w) :: t, k, v => if i = k then (k, v) :: t else (i, w) :: setEntry t k v

/-- `countBufferedValues(it, diff)` on the counters map: read, add, delete
the entry when the updated value is zero, store it otherwise. -/
def countBuf (cs : List (Nat × Int)) (k : Nat) (diff : Int) : List (Nat × Int) :=
  let updated := (Chan.lookupId cs k).getD 0 + diff
  if updated = 0 then Chan.eraseId cs k else setEntry cs k updated

/-- Position of the source-intake loop.  `waiting k`: the pulled source `k`
is held while the loop is suspended on `onNextIterator`; `fired k`: the
resolver was called, the continuation is queued; `idone`: the outer
sequence is exhausted. -/
inductive IState where
  | ready
  | waiting (k : Nat)
  | fired (k : Nat)
  | idone
  deriving DecidableEq

/-- Position of the output (consume) loop.  `cgot k item`: `consume()`
resolved with the pair, the decrement/fire-check/yield of that iteration
has not run yet. -/
inductive CState (α : Type) where
  | ctop
  | cwait
  | cgot (k : Nat) (item : α)
  | cdone
  deriving DecidableEq

/-- A pump blocked inside `await publish({item, it})`. -/
structure PWaiter (α : Type) where
  src : Nat
  item : α
  rest : List α
  deriving DecidableEq

/-- State of the fan-in multiplexer. -/
structure St (α : Type) where
  nextSrc : Nat
  intake : IState
  active : List Nat
  counters : List (Nat × Int)
  pumps : List (Nat × List α)
  pending : List (PWaiter α)
  woken : List (PWaiter α)
  inflight : List (Nat × α)
  buffer : List (Nat × α)
  inputsExhausted : Bool
  cons : CState α
  output : List α
  deriving DecidableEq

def producingSize (s : St α) : Nat := s.inflight.length + s.buffer.length

def capReached (oc : Option Nat) (s : St α) : Bool :=
  match oc with
  | none => false
  | some c => decide (c ≤ producingSize s)

/-- `countActiveIterators()`. -/
def countActive (s : St α) : Nat :=
  s.counters.length
    + (s.active.filter (fun k => (Chan.lookupId s.counters k).isNone)).length

/-- `notify(waitingProducers)`: queue the continuation of the head waiter. -/
def wakeOne (s : St α) : St α :=
  match s.pending with
  | [] => s
  | p :: ps => { s with pending := ps, woken := s.woken ++ [p] }

/-- `nextIteratorIfNeeded(k)`: fire `onNextIterator` when the slot is armed
(the intake is suspended), `k` is retired (`!active.has(k)` and its counter
is zero) and `producing.size < outputConcurrency`.  A resolver of an
already-resolved promise (intake not in `waiting`) is a no-op. -/
def fireCheck (oc : Option Nat) (k : Nat) (s : St α) : St α :=
  match s.intake with
  | .waiting j =>
      if k ∉ s.active ∧ (Chan.lookupId s.counters k).getD 0 = 0
          ∧ capReached oc s = false then
        { s with intake := .fired j }
      else s
  | _ => s

/-- Tap source `k`: `readIterator` runs synchronously to its first `await`,
adding `k` to `active` and starting its pump. -/
def tap (srcs : List (List α)) (k : Nat) (s : St α) : St α :=
  { s with active := s.active ++ [k], pumps := s.pumps ++ [(k, srcs.getD k [])] }

/-- Scheduler events.  `settle n` settles the `n`-th in-flight publish. -/
inductive REv where
  | ipull
  | iresume
  | pstep (k : Nat)
  | presume
  | settle (n : Nat)
  | ccheck
  | cyield
  deriving DecidableEq

/-- One atomic step of the multiplexer. -/
def step (L : Nat) (oc : Option Nat) (srcs : List (List α)) (s : St α) :
    REv → Option (St α)
  | .ipull =>
      match s.intake with
      | .ready =>
          if s.nextSrc < srcs.length then
            let k := s.nextSrc
            let s1 := { s with nextSrc := k + 1 }
            if L ≤ countActive s then some { s1 with intake := .waiting k }
            else some (tap srcs k s1)
          else
            some { s with intake := .idone, inputsExhausted := true }
      | _ => none
  | .iresume =>
      match s.intake with
      | .fired k => some (tap srcs k { s with intake := .ready })
      | _ => none
  | .pstep k =>
      match Chan.lookupId s.pumps k with
      | none => none
      | some items =>
          match items with
          | item :: rest =>
              -- countBufferedValues(it, +1); await publish({item, it})
              let s1 := { s with counters := countBuf s.counters k 1 }
              if capReached oc s1 then
                some { s1 with pumps := Chan.eraseId s1.pumps k,
                               pending := s1.pending ++ [⟨k, item, rest⟩] }
              else
                some { s1 with pumps := setEntry s1.pumps k rest,
                               inflight := s1.inflight ++ [(k, item)] }
          | [] =>
              -- finally: active.delete(it); nextIteratorIfNeeded(it)
              some (fireCheck oc k
                { s with pumps := Chan.eraseId s.pumps k,
                         active := s.active.erase k })
  | .presume =>
      match s.woken with
      | [] => none
      | w :: ws =>
          some { s with woken := ws, inflight := s.inflight ++ [(w.src, w.item)],
                        pumps := s.pumps ++ [(w.src, w.rest)] }
  | .settle n =>
      match s.inflight[n]? with
      | none => none
      | some (k, item) =>
          let s1 := { s with inflight := s.inflight.eraseIdx n }
          match s1.cons with
          | .cwait => some (wakeOne { s1 with cons := .cgot k item })
          | _ => some { s1 with buffer := s1.buffer ++ [(k, item)] }
  | .ccheck =>
      match s.cons with
      | .ctop =>
          if s.inputsExhausted ∧ s.active = [] ∧ s.counters = []
              ∧ producingSize s = 0 then
            some { s with cons := .cdone }
          else
            match s.buffer with
            | (k, item) :: bs =>
                some (wakeOne { s with buffer := bs, cons := .cgot k item })
            | [] => some { s with cons := .cwait }
      | _ => none
  | .cyield =>
      match s.cons with
      | .cgot k item =>
          some (fireCheck oc k
            { s with counters := countBuf s.counters k (-1),
                     output := s.output ++ [item], cons := .ctop })
      | _ => none

def init (α : Type) : St α :=
  ⟨0, .ready, [], [], [], [], [], [], [], false, .ctop, []⟩

def run (L : Nat) (oc : Option Nat) (srcs : List (List α)) (es : List REv) :
    Option (St α) :=
  es.foldlM (step L oc srcs) (init α)

end Race

/-!
## Part II: lemmas and claim theorems

Everything below is proof: generic reachability induction, per-model
invariants, and the theorems settling the claims.
-/

/-- Reachability induction for a deterministic step function over `Option`. -/
theorem foldlM_option_inv {σ ε : Type _} {stp : σ → ε → Option σ} {P : σ → Prop}
    (hstep : ∀ s e s', P s → stp s e = some s' → P s') :
    ∀ (es : List ε) (s0 s : σ), P s0 → es.foldlM stp s0 = some s → P s := by
  intro es
  induction es with
  | nil =>
    intro s0 s h0 hrun
    simp [List.foldlM] at hrun
    exact hrun ▸ h0
  | cons e t ih =>
    intro s0 s h0 hrun
    simp only [List.foldlM] at hrun
    cases hs1 : stp s0 e with
    | none => rw [hs1] at hrun; simp at hrun
    | some s1 =>
      rw [hs1] at hrun
      simp at hrun
      exact ih s1 s (hstep s0 e s1 h0 hs1) hrun

namespace Chan
variable {β : Type}

@[simp] theorem wakeOne_buffer (fused : Bool) (s : St β) :
    (wakeOne fused s).buffer = s.buffer := by
  unfold wakeOne; split; · rfl
  split <;> rfl

@[simp] theorem wakeOne_consumers (fused : Bool) (s : St β) :
    (wakeOne fused s).consumers = s.consumers := by
  unfold wakeOne; split; · rfl
  split <;> rfl

@[simp] theorem wakeOne_vals (fused : Bool) (s : St β) :
    (wakeOne fused s).vals = s.vals := by
  unfold wakeOne; split; · rfl
  split <;> rfl

@[simp] theorem wakeOne_delivered (fused : Bool) (s : St β) :
    (wakeOne fused s).delivered = s.delivered := by
  unfold wakeOne; split; · rfl
  split <;> rfl

@[simp] theorem wakeOne_dropped (fused : Bool) (s : St β) :
    (wakeOne fused s).dropped = s.dropped := by
  unfold wakeOne; split; · rfl
  split <;> rfl

@[simp] theorem wakeOne_settled (fused : Bool) (s : St β) :
    (wakeOne fused s).settled = s.settled := by
  unfold wakeOne; split; · rfl
  split <;> rfl

@[simp] theorem wakeOne_bufEntered (fused : Bool) (s : St β) :
    (wakeOne fused s).bufEntered = s.bufEntered := by
  unfold wakeOne; split; · rfl
  split <;> rfl

@[simp] theorem wakeOne_bufPopped (fused : Bool) (s : St β) :
    (wakeOne fused s).bufPopped = s.bufPopped := by
  unfold wakeOne; split; · rfl
  split <;> rfl

@[simp] theorem wakeOne_nextId (fused : Bool) (s : St β) :
    (wakeOne fused s).nextId = s.nextId := by
  unfold wakeOne; split; · rfl
  split <;> rfl

@[simp] theorem wakeOne_nextCid (fused : Bool) (s : St β) :
    (wakeOne fused s).nextCid = s.nextCid := by
  unfold wakeOne; split; · rfl
  split <;> rfl

theorem step_pub_blocked {cap : Option Nat} {s : St β} (fused : Bool) (v : Option β)
    (hc : capReached cap s = true) :
    step fused cap s (.pub v) =
      some { s with nextId := s.nextId + 1, vals := s.vals ++ [(s.nextId, v)],
                    pending := s.pending ++ [(s.nextId, v)] } := by
  simp [step, hc]

theorem step_pub_admitted {cap : Option Nat} {s : St β} (fused : Bool) (v : Option β)
    (hc : capReached cap s = false) :
    step fused cap s (.pub v) =
      some { s with nextId := s.nextId + 1, vals := s.vals ++ [(s.nextId, v)],
                    inflight := s.inflight ++ [(s.nextId, v)],
                    returned := s.returned ++ [s.nextId] } := by
  simp [step, hc]

theorem step_settle_deliver {cap : Option Nat} {s : St β} {id : Nat} {v : Option β}
    {c : Nat} {cs : List Nat} (fused : Bool)
    (hl : lookupId s.inflight id = some v) (hc : s.consumers = c :: cs) :
    step fused cap s (.settle id) =
      some (wakeOne fused
        { s with inflight := eraseId s.inflight id, settled := s.settled ++ [id],
                 consumers := cs, delivered := s.delivered ++ [(c, id, v)] }) := by
  simp [step, hl, hc]

theorem step_settle_buffered {cap : Option Nat} {s : St β} {id : Nat} {v : Option β}
    (fused : Bool) (hl : lookupId s.inflight id = some v) (hc : s.consumers = []) :
    step fused cap s (.settle id) =
      some { s with inflight := eraseId s.inflight id, settled := s.settled ++ [id],
                    buffer := s.buffer ++ [(id, v)],
                    bufEntered := s.bufEntered ++ [id] } := by
  simp [step, hl, hc]

theorem step_consume_pop_val {cap : Option Nat} {s : St β} {id : Nat} {b : β}
    {bs : List (Nat × Option β)} (fused : Bool) (hb : s.buffer = (id, some b) :: bs) :
    step fused cap s .consume =
      some { wakeOne fused { s with nextCid := s.nextCid + 1, buffer := bs,
                                    bufPopped := s.bufPopped ++ [id] } with
             delivered := s.delivered ++ [(s.nextCid, id, some b)] } := by
  simp [step, hb]

theorem step_consume_pop_undef {cap : Option Nat} {s : St β} {id : Nat}
    {bs : List (Nat × Option β)} (fused : Bool) (hb : s.buffer = (id, none) :: bs) :
    step fused cap s .consume =
      some { wakeOne fused { s with nextCid := s.nextCid + 1, buffer := bs,
                                    bufPopped := s.bufPopped ++ [id] } with
             consumers := s.consumers ++ [s.nextCid],
             dropped := s.dropped ++ [id] } := by
  simp [step, hb]

theorem step_consume_empty {cap : Option Nat} {s : St β} (fused : Bool)
    (hb : s.buffer = []) :
    step fused cap s .consume =
      some { s with nextCid := s.nextCid + 1,
                    consumers := s.consumers ++ [s.nextCid] } := by
  simp [step, hb]

theorem step_resume {cap : Option Nat} {s : St β} {id : Nat} {v : Option β}
    {ws : List (Nat × Option β)} (hw : s.woken = (id, v) :: ws) :
    step false cap s .resume =
      some { s with woken := ws, inflight := s.inflight ++ [(id, v)],
                    returned := s.returned ++ [id] } := by
  simp [step, hw]

end Chan

namespace Chan
variable {β : Type}

theorem wakeOne_inflight_len (fused : Bool) (s : St β) :
    (wakeOne fused s).inflight.length ≤ s.inflight.length + 1 := by
  unfold wakeOne
  split
  · omega
  · split <;> simp


theorem lookupId_perm {γ : Type} {l : List (Nat × γ)} {id : Nat} {v : γ}
    (h : lookupId l id = some v) : l.Perm ((id, v) :: eraseId l id) := by
  induction l with
  | nil => simp [lookupId] at h
  | cons p t ih =>
    obtain ⟨i, w⟩ := p
    by_cases hi : i = id
    · subst hi
      simp only [lookupId, if_pos] at h
      rw [eraseId, if_pos rfl]
      cases h
      rfl
    · rw [lookupId, if_neg hi] at h
      have hp := ih h
      rw [eraseId, if_neg hi]
      exact (hp.cons _).trans (List.Perm.swap _ _ _)

theorem length_eraseId {γ : Type} {l : List (Nat × γ)} {id : Nat} {v : γ}
    (h : lookupId l id = some v) : l.length = (eraseId l id).length + 1 := by
  have := (lookupId_perm h).length_eq
  simpa using this

theorem fused_size_le {C : Nat} :
    ∀ (es : List (Ev β)) (s : St β), run true (some C) es = some s →
      producingSize s ≤ C := by
  intro es s hrun
  refine foldlM_option_inv (P := fun s => producingSize s ≤ C) ?_ es (init β) s
    (by simp [init, producingSize]) hrun
  intro s e s' hP hstep
  cases e with
  | pub v =>
    cases hc : capReached (some C) s with
    | true =>
      rw [step_pub_blocked _ _ hc] at hstep
      simp only [Option.some.injEq] at hstep
      subst hstep
      simpa [producingSize] using hP
    | false =>
      rw [step_pub_admitted _ _ hc] at hstep
      simp only [Option.some.injEq] at hstep
      subst hstep
      simp only [capReached, decide_eq_false_iff_not, not_le] at hc
      simp only [producingSize] at hP hc ⊢
      simp only [List.length_append, List.length_cons, List.length_nil]
      omega
  | settle id =>
    cases hl : lookupId s.inflight id with
    | none => simp [step, hl] at hstep
    | some v =>
      have hlen := length_eraseId hl
      cases hcons : s.consumers with
      | cons c cs =>
        rw [step_settle_deliver true hl hcons] at hstep
        simp only [Option.some.injEq] at hstep
        subst hstep
        have hw := wakeOne_inflight_len true
          { s with inflight := eraseId s.inflight id, settled := s.settled ++ [id],
                   consumers := cs, delivered := s.delivered ++ [(c, id, v)] }
        simp only [producingSize] at hP ⊢
        simp only [wakeOne_buffer]
        simp only at hw
        omega
      | nil =>
        rw [step_settle_buffered true hl hcons] at hstep
        simp only [Option.some.injEq] at hstep
        subst hstep
        simp only [producingSize, List.length_append, List.length_cons,
          List.length_nil] at hP ⊢
        omega
  | consume =>
    cases hbuf : s.buffer with
    | nil =>
      rw [step_consume_empty _ hbuf] at hstep
      simp only [Option.some.injEq] at hstep
      subst hstep
      simpa [producingSize] using hP
    | cons p bs =>
      obtain ⟨id, v⟩ := p
      have hb : s.buffer.length = bs.length + 1 := by rw [hbuf]; simp
      cases v with
      | some b =>
        rw [step_consume_pop_val true hbuf] at hstep
        simp only [Option.some.injEq] at hstep
        subst hstep
        have hw := wakeOne_inflight_len true
          { s with nextCid := s.nextCid + 1, buffer := bs,
                   bufPopped := s.bufPopped ++ [id] }
        simp only [producingSize] at hP ⊢
        simp only [wakeOne_buffer]
        simp only at hw
        omega
      | none =>
        rw [step_consume_pop_undef true hbuf] at hstep
        simp only [Option.some.injEq] at hstep
        subst hstep
        have hw := wakeOne_inflight_len true
          { s with nextCid := s.nextCid + 1, buffer := bs,
                   bufPopped := s.bufPopped ++ [id] }
        simp only [producingSize] at hP ⊢
        simp only [wakeOne_buffer]
        simp only at hw
        omega
  | resume => simp [step] at hstep

end Chan

namespace Chan
variable {β : Type}

theorem mcoe_append {γ : Type} (l1 l2 : List γ) :
    ((l1 ++ l2 : List γ) : Multiset γ) = (l1 : Multiset γ) + (l2 : Multiset γ) :=
  (Multiset.coe_add l1 l2).symm

@[simp] theorem wakeOne_inflight_false (s : St β) :
    (wakeOne false s).inflight = s.inflight := by
  unfold wakeOne
  split
  · rfl
  · simp

@[simp] theorem wakeOne_returned_false (s : St β) :
    (wakeOne false s).returned = s.returned := by
  unfold wakeOne
  split
  · rfl
  · simp

theorem wakeOne_pw (s : St β) :
    ((pendingIds (wakeOne false s) : List Nat) : Multiset Nat) + ↑(wokenIds (wakeOne false s))
      = ↑(pendingIds s) + ↑(wokenIds s) := by
  unfold wakeOne
  cases hps : s.pending with
  | nil => rfl
  | cons p ps =>
    simp only [Bool.false_eq_true, if_false, pendingIds, wokenIds, List.map_append,
      List.map_cons, List.map_nil, hps, mcoe_append, Multiset.coe_singleton]
    conv_rhs => rw [← Multiset.cons_coe]
    rw [← Multiset.singleton_add]
    abel

theorem wakeOne_pending_subset {s : St β} {p : Nat × Option β}
    (h : p ∈ (wakeOne false s).pending) : p ∈ s.pending := by
  unfold wakeOne at h
  split at h
  · exact h
  · rename_i q qs hqs
    simp at h
    rw [hqs]
    exact List.mem_cons_of_mem _ h

theorem wakeOne_woken_subset {s : St β} {p : Nat × Option β}
    (h : p ∈ (wakeOne false s).woken) : p ∈ s.woken ∨ p ∈ s.pending := by
  unfold wakeOne at h
  split at h
  · exact Or.inl h
  · rename_i q qs hqs
    simp at h
    rcases h with h | h
    · exact Or.inl h
    · rw [hqs, h]
      exact Or.inr (List.mem_cons_self _ _)

theorem lookupId_mem {γ : Type} {l : List (Nat × γ)} {id : Nat} {v : γ}
    (h : lookupId l id = some v) : (id, v) ∈ l :=
  (lookupId_perm h).symm.subset (List.mem_cons_self _ _)

theorem mem_eraseId {γ : Type} {l : List (Nat × γ)} {id : Nat} {v : γ} {p : Nat × γ}
    (h : lookupId l id = some v) (hp : p ∈ eraseId l id) : p ∈ l :=
  (lookupId_perm h).symm.subset (List.mem_cons_of_mem _ hp)

theorem lookupId_append_left {γ : Type} {l l2 : List (Nat × γ)} {id : Nat} {v : γ}
    (h : lookupId l id = some v) : lookupId (l ++ l2) id = some v := by
  induction l with
  | nil => simp [lookupId] at h
  | cons p t ih =>
    obtain ⟨i, w⟩ := p
    rw [List.cons_append]
    by_cases hi : i = id
    · subst hi
      rw [lookupId, if_pos rfl] at h
      rw [lookupId, if_pos rfl]
      exact h
    · rw [lookupId, if_neg hi] at h
      rw [lookupId, if_neg hi]
      exact ih h

theorem lookupId_append_fresh {γ : Type} {l : List (Nat × γ)} {j : Nat} {u : γ}
    (h : ∀ p ∈ l, p.1 ≠ j) : lookupId (l ++ [(j, u)]) j = some u := by
  induction l with
  | nil => simp [lookupId]
  | cons p t ih =>
    obtain ⟨i, w⟩ := p
    have hij : i ≠ j := h (i, w) (List.mem_cons_self _ _)
    rw [List.cons_append, lookupId, if_neg hij]
    exact ih (fun q hq => h q (List.mem_cons_of_mem _ hq))

end Chan

namespace Chan
variable {β : Type}

theorem inflightIds_erase {s : St β} {id : Nat} {v : Option β}
    (hl : lookupId s.inflight id = some v) :
    (inflightIds s : Multiset Nat) = {id} + ↑(List.map Prod.fst (eraseId s.inflight id)) := by
  have hperm := (lookupId_perm hl).map Prod.fst
  rw [inflightIds, Multiset.coe_eq_coe.mpr hperm, List.map_cons, ← Multiset.cons_coe,
    ← Multiset.singleton_add]

/-- Master invariant of the faithful channel model: conservation of submission
ids across the disjoint stations of the state, freshness of ids, agreement of
every station with the ghost `vals` record, publish-future resolution exactly
on admission, classification of settled submissions, and FIFO order of the
ready buffer. -/
structure Inv (s : St β) : Prop where
  conservation : (calledIds s : Multiset Nat) =
    ↑(pendingIds s) + ↑(wokenIds s) + ↑(inflightIds s) + ↑(bufferIds s)
      + ↑(deliveredSubIds s) + ↑s.dropped
  called_nodup : (calledIds s).Nodup
  called_lt : ∀ id ∈ calledIds s, id < s.nextId
  returned_perm : (calledIds s : Multiset Nat) =
    ↑s.returned + ↑(pendingIds s) + ↑(wokenIds s)
  vals_pending : ∀ p ∈ s.pending, lookupId s.vals p.1 = some p.2
  vals_woken : ∀ p ∈ s.woken, lookupId s.vals p.1 = some p.2
  vals_inflight : ∀ p ∈ s.inflight, lookupId s.vals p.1 = some p.2
  vals_buffer : ∀ p ∈ s.buffer, lookupId s.vals p.1 = some p.2
  vals_delivered : ∀ d ∈ s.delivered, lookupId s.vals d.2.1 = some d.2.2
  vals_dropped : ∀ id ∈ s.dropped, lookupId s.vals id = some none
  settled_cases : ∀ id ∈ s.settled,
    id ∈ bufferIds s ∨ id ∈ deliveredSubIds s ∨ id ∈ s.dropped
  fifo : s.bufEntered = s.bufPopped ++ bufferIds s

theorem inv_init : Inv (init β) := by
  constructor <;> simp [init, calledIds, pendingIds, wokenIds, inflightIds, bufferIds,
    deliveredSubIds]


theorem Inv.fresh {s : St β} (H : Inv s) : ∀ q ∈ s.vals, q.1 ≠ s.nextId := by
  intro q hq
  exact Nat.ne_of_lt (H.called_lt _ (List.mem_map_of_mem _ hq))

theorem inv_step {cap : Option Nat} {s s' : St β} {e : Ev β}
    (H : Inv s) (hstep : step false cap s e = some s') : Inv s' := by
  cases e with
  | pub v =>
    have hfresh := H.fresh
    have hltv : ∀ q ∈ s.vals ++ [(s.nextId, v)], lookupId (s.vals ++ [(s.nextId, v)]) q.1 = some q.2 → True := fun _ _ _ => trivial
    cases hc : capReached cap s with
    | true =>
      rw [step_pub_blocked _ _ hc] at hstep
      simp only [Option.some.injEq] at hstep
      subst hstep
      refine ⟨?_, ?_, ?_, ?_, ?_, ?_, ?_, ?_, ?_, ?_, ?_, ?_⟩
      · have hc0 := H.conservation
        simp only [calledIds, pendingIds, wokenIds, inflightIds, bufferIds, deliveredSubIds,
          List.map_append, List.map_cons, List.map_nil, mcoe_append,
          Multiset.coe_singleton] at hc0 ⊢
        rw [hc0]
        abel
      · simp only [calledIds, List.map_append, List.map_cons, List.map_nil]
        refine List.Nodup.append H.called_nodup (List.nodup_singleton _) ?_
        intro a ha hb
        simp only [List.mem_singleton] at hb
        subst hb
        exact absurd (H.called_lt _ ha) (lt_irrefl _)
      · simp only [calledIds, List.map_append, List.map_cons, List.map_nil]
        intro id hid
        rcases List.mem_append.mp hid with h | h
        · exact Nat.lt_succ_of_lt (H.called_lt _ h)
        · simp only [List.mem_singleton] at h
          subst h
          exact Nat.lt_succ_self _
      · have hr0 := H.returned_perm
        simp only [calledIds, pendingIds, wokenIds, List.map_append, List.map_cons,
          List.map_nil, mcoe_append, Multiset.coe_singleton] at hr0 ⊢
        rw [hr0]
        abel
      · intro p hp
        simp only [List.mem_append, List.mem_singleton] at hp
        rcases hp with hp | hp
        · exact lookupId_append_left (H.vals_pending p hp)
        · subst hp
          exact lookupId_append_fresh hfresh
      · intro p hp
        exact lookupId_append_left (H.vals_woken p hp)
      · intro p hp
        exact lookupId_append_left (H.vals_inflight p hp)
      · intro p hp
        exact lookupId_append_left (H.vals_buffer p hp)
      · intro d hd
        exact lookupId_append_left (H.vals_delivered d hd)
      · intro id hid
        exact lookupId_append_left (H.vals_dropped id hid)
      · exact H.settled_cases
      · exact H.fifo
    | false =>
      rw [step_pub_admitted _ _ hc] at hstep
      simp only [Option.some.injEq] at hstep
      subst hstep
      refine ⟨?_, ?_, ?_, ?_, ?_, ?_, ?_, ?_, ?_, ?_, ?_, ?_⟩
      · have hc0 := H.conservation
        simp only [calledIds, pendingIds, wokenIds, inflightIds, bufferIds, deliveredSubIds,
          List.map_append, List.map_cons, List.map_nil, mcoe_append,
          Multiset.coe_singleton] at hc0 ⊢
        rw [hc0]
        abel
      · simp only [calledIds, List.map_append, List.map_cons, List.map_nil]
        refine List.Nodup.append H.called_nodup (List.nodup_singleton _) ?_
        intro a ha hb
        simp only [List.mem_singleton] at hb
        subst hb
        exact absurd (H.called_lt _ ha) (lt_irrefl _)
      · simp only [calledIds, List.map_append, List.map_cons, List.map_nil]
        intro id hid
        rcases List.mem_append.mp hid with h | h
        · exact Nat.lt_succ_of_lt (H.called_lt _ h)
        · simp only [List.mem_singleton] at h
          subst h
          exact Nat.lt_succ_self _
      · have hr0 := H.returned_perm
        simp only [calledIds, pendingIds, wokenIds, List.map_append, List.map_cons,
          List.map_nil, mcoe_append, Multiset.coe_singleton] at hr0 ⊢
        rw [hr0]
        abel
      · intro p hp
        exact lookupId_append_left (H.vals_pending p hp)
      · intro p hp
        exact lookupId_append_left (H.vals_woken p hp)
      · intro p hp
        simp only [List.mem_append, List.mem_singleton] at hp
        rcases hp with hp | hp
        · exact lookupId_append_left (H.vals_inflight p hp)
        · subst hp
          exact lookupId_append_fresh hfresh
      · intro p hp
        exact lookupId_append_left (H.vals_buffer p hp)
      · intro d hd
        exact lookupId_append_left (H.vals_delivered d hd)
      · intro id hid
        exact lookupId_append_left (H.vals_dropped id hid)
      · exact H.settled_cases
      · exact H.fifo
  | settle id =>
    cases hl : lookupId s.inflight id with
    | none => simp [step, hl] at hstep
    | some v =>
      have hmem : (id, v) ∈ s.inflight := lookupId_mem hl
      cases hcons : s.consumers with
      | cons c cs =>
        rw [step_settle_deliver false hl hcons] at hstep
        simp only [Option.some.injEq] at hstep
        subst hstep
        refine ⟨?_, ?_, ?_, ?_, ?_, ?_, ?_, ?_, ?_, ?_, ?_, ?_⟩
        · have hc0 := H.conservation
          rw [inflightIds_erase hl] at hc0
          simp only [calledIds, pendingIds, wokenIds, inflightIds, bufferIds, deliveredSubIds,
            wakeOne_vals, wakeOne_inflight_false, wakeOne_buffer, wakeOne_delivered,
            wakeOne_dropped, List.map_append, List.map_cons, List.map_nil, mcoe_append,
            Multiset.coe_singleton] at hc0 ⊢
          rw [hc0]
          have hpw := wakeOne_pw (β := β)
            { s with inflight := eraseId s.inflight id, settled := s.settled ++ [id],
                     consumers := cs, delivered := s.delivered ++ [(c, id, v)] }
          simp only [pendingIds, wokenIds] at hpw
          rw [hpw]
          abel
        · simpa only [calledIds, wakeOne_vals] using H.called_nodup
        · simpa only [calledIds, wakeOne_vals, wakeOne_nextId] using H.called_lt
        · have hr0 := H.returned_perm
          simp only [calledIds, pendingIds, wokenIds, wakeOne_vals,
            wakeOne_returned_false] at hr0 ⊢
          rw [hr0]
          have hpw := wakeOne_pw (β := β)
            { s with inflight := eraseId s.inflight id, settled := s.settled ++ [id],
                     consumers := cs, delivered := s.delivered ++ [(c, id, v)] }
          simp only [pendingIds, wokenIds] at hpw
          rw [add_assoc, add_assoc, hpw]
        · intro p hp
          have := wakeOne_pending_subset hp
          simp only [wakeOne_vals]
          exact H.vals_pending p this
        · intro p hp
          rcases wakeOne_woken_subset hp with h | h
          · simpa only [wakeOne_vals] using H.vals_woken p h
          · simpa only [wakeOne_vals] using H.vals_pending p h
        · intro p hp
          simp only [wakeOne_inflight_false] at hp
          simpa only [wakeOne_vals] using H.vals_inflight p (mem_eraseId hl hp)
        · intro p hp
          simp only [wakeOne_buffer] at hp
          simpa only [wakeOne_vals] using H.vals_buffer p hp
        · intro d hd
          simp only [wakeOne_delivered] at hd
          simp only [List.mem_append, List.mem_singleton] at hd
          rcases hd with hd | hd
          · simpa only [wakeOne_vals] using H.vals_delivered d hd
          · subst hd
            simpa only [wakeOne_vals] using H.vals_inflight (id, v) hmem
        · intro j hj
          simp only [wakeOne_dropped] at hj
          simpa only [wakeOne_vals] using H.vals_dropped j hj
        · intro j hj
          simp only [wakeOne_settled] at hj
          simp only [wakeOne_buffer, wakeOne_delivered, wakeOne_dropped, bufferIds,
            deliveredSubIds, List.map_append, List.map_cons, List.map_nil]
          simp only [List.mem_append, List.mem_singleton] at hj ⊢
          rcases hj with hj | hj
          · rcases H.settled_cases j hj with h | h | h
            · exact Or.inl (by simpa [bufferIds] using h)
            · exact Or.inr (Or.inl (Or.inl (by simpa [deliveredSubIds] using h)))
            · exact Or.inr (Or.inr h)
          · subst hj
            exact Or.inr (Or.inl (Or.inr rfl))
        · simp only [wakeOne_bufEntered, wakeOne_bufPopped, wakeOne_buffer, bufferIds]
          exact H.fifo
      | nil =>
        rw [step_settle_buffered false hl hcons] at hstep
        simp only [Option.some.injEq] at hstep
        subst hstep
        refine ⟨?_, ?_, ?_, ?_, ?_, ?_, ?_, ?_, ?_, ?_, ?_, ?_⟩
        · have hc0 := H.conservation
          rw [inflightIds_erase hl] at hc0
          simp only [calledIds, pendingIds, wokenIds, inflightIds, bufferIds, deliveredSubIds,
            List.map_append, List.map_cons, List.map_nil, mcoe_append,
            Multiset.coe_singleton] at hc0 ⊢
          rw [hc0]
          abel
        · exact H.called_nodup
        · exact H.called_lt
        · exact H.returned_perm
        · exact H.vals_pending
        · exact H.vals_woken
        · intro p hp
          exact H.vals_inflight p (mem_eraseId hl hp)
        · intro p hp
          simp only [List.mem_append, List.mem_singleton] at hp
          rcases hp with hp | hp
          · exact H.vals_buffer p hp
          · subst hp
            exact H.vals_inflight (id, v) hmem
        · exact H.vals_delivered
        · exact H.vals_dropped
        · intro j hj
          simp only [List.mem_append, List.mem_singleton] at hj
          simp only [bufferIds, deliveredSubIds, List.map_append, List.map_cons, List.map_nil,
            List.mem_append, List.mem_singleton]
          rcases hj with hj | hj
          · rcases H.settled_cases j hj with h | h | h
            · exact Or.inl (Or.inl (by simpa [bufferIds] using h))
            · exact Or.inr (Or.inl (by simpa [deliveredSubIds] using h))
            · exact Or.inr (Or.inr h)
          · subst hj
            exact Or.inl (Or.inr rfl)
        · simp only [bufferIds, List.map_append, List.map_cons, List.map_nil]
          rw [H.fifo, List.append_assoc]
          rfl
  | consume =>
    cases hbuf : s.buffer with
    | nil =>
      rw [step_consume_empty _ hbuf] at hstep
      simp only [Option.some.injEq] at hstep
      subst hstep
      exact ⟨H.conservation, H.called_nodup, H.called_lt, H.returned_perm, H.vals_pending,
        H.vals_woken, H.vals_inflight, H.vals_buffer, H.vals_delivered, H.vals_dropped,
        H.settled_cases, H.fifo⟩
    | cons hd bs =>
      obtain ⟨id, v⟩ := hd
      have hdmem : (id, v) ∈ s.buffer := by rw [hbuf]; exact List.mem_cons_self _ _
      have hbufids : bufferIds s = id :: List.map Prod.fst bs := by
        simp [bufferIds, hbuf]
      cases v with
      | some b =>
        rw [step_consume_pop_val false hbuf] at hstep
        simp only [Option.some.injEq] at hstep
        subst hstep
        refine ⟨?_, ?_, ?_, ?_, ?_, ?_, ?_, ?_, ?_, ?_, ?_, ?_⟩
        · have hc0 := H.conservation
          rw [hbufids] at hc0
          simp only [calledIds, pendingIds, wokenIds, inflightIds, bufferIds, deliveredSubIds,
            wakeOne_vals, wakeOne_inflight_false, wakeOne_buffer, wakeOne_delivered,
            wakeOne_dropped, List.map_append, List.map_cons, List.map_nil, mcoe_append,
            Multiset.coe_singleton, ← Multiset.cons_coe, ← Multiset.singleton_add] at hc0 ⊢
          rw [hc0]
          have hpw := wakeOne_pw (β := β)
            { s with nextCid := s.nextCid + 1, buffer := bs,
                     bufPopped := s.bufPopped ++ [id] }
          simp only [pendingIds, wokenIds] at hpw
          rw [hpw]
          abel
        · simpa only [calledIds, wakeOne_vals] using H.called_nodup
        · simpa only [calledIds, wakeOne_vals, wakeOne_nextId] using H.called_lt
        · have hr0 := H.returned_perm
          simp only [calledIds, pendingIds, wokenIds, wakeOne_vals,
            wakeOne_returned_false] at hr0 ⊢
          rw [hr0]
          have hpw := wakeOne_pw (β := β)
            { s with nextCid := s.nextCid + 1, buffer := bs,
                     bufPopped := s.bufPopped ++ [id] }
          simp only [pendingIds, wokenIds] at hpw
          rw [add_assoc, add_assoc, hpw]
        · intro p hp
          have := wakeOne_pending_subset hp
          simp only [wakeOne_vals]
          exact H.vals_pending p this
        · intro p hp
          rcases wakeOne_woken_subset hp with h | h
          · simpa only [wakeOne_vals] using H.vals_woken p h
          · simpa only [wakeOne_vals] using H.vals_pending p h
        · intro p hp
          simp only [wakeOne_inflight_false] at hp
          simpa only [wakeOne_vals] using H.vals_inflight p hp
        · intro p hp
          simp only [wakeOne_buffer] at hp
          have : p ∈ s.buffer := by rw [hbuf]; exact List.mem_cons_of_mem _ hp
          simpa only [wakeOne_vals] using H.vals_buffer p this
        · intro d hd
          simp only [wakeOne_delivered] at hd
          simp only [List.mem_append, List.mem_singleton] at hd
          rcases hd with hd | hd
          · simpa only [wakeOne_vals] using H.vals_delivered d hd
          · subst hd
            simpa only [wakeOne_vals] using H.vals_buffer (id, some b) hdmem
        · intro j hj
          simp only [wakeOne_dropped] at hj
          simpa only [wakeOne_vals] using H.vals_dropped j hj
        · intro j hj
          simp only [wakeOne_settled] at hj
          simp only [wakeOne_buffer, wakeOne_delivered, wakeOne_dropped, bufferIds,
            deliveredSubIds, List.map_append, List.map_cons, List.map_nil,
            List.mem_append, List.mem_singleton]
          rcases H.settled_cases j hj with h | h | h
          · rw [hbufids] at h
            rcases List.mem_cons.mp h with h | h
            · exact Or.inr (Or.inl (Or.inr h))
            · exact Or.inl h
          · exact Or.inr (Or.inl (Or.inl (by simpa [deliveredSubIds] using h)))
          · exact Or.inr (Or.inr h)
        · simp only [wakeOne_bufEntered, wakeOne_bufPopped, wakeOne_buffer, bufferIds]
          rw [H.fifo, hbufids, List.append_assoc]
          rfl
      | none =>
        rw [step_consume_pop_undef false hbuf] at hstep
        simp only [Option.some.injEq] at hstep
        subst hstep
        refine ⟨?_, ?_, ?_, ?_, ?_, ?_, ?_, ?_, ?_, ?_, ?_, ?_⟩
        · have hc0 := H.conservation
          rw [hbufids] at hc0
          simp only [calledIds, pendingIds, wokenIds, inflightIds, bufferIds, deliveredSubIds,
            wakeOne_vals, wakeOne_inflight_false, wakeOne_buffer, wakeOne_delivered,
            wakeOne_dropped, List.map_append, List.map_cons, List.map_nil, mcoe_append,
            Multiset.coe_singleton, ← Multiset.cons_coe, ← Multiset.singleton_add] at hc0 ⊢
          rw [hc0]
          have hpw := wakeOne_pw (β := β)
            { s with nextCid := s.nextCid + 1, buffer := bs,
                     bufPopped := s.bufPopped ++ [id] }
          simp only [pendingIds, wokenIds] at hpw
          rw [hpw]
          abel
        · simpa only [calledIds, wakeOne_vals] using H.called_nodup
        · simpa only [calledIds, wakeOne_vals, wakeOne_nextId] using H.called_lt
        · have hr0 := H.returned_perm
          simp only [calledIds, pendingIds, wokenIds, wakeOne_vals,
            wakeOne_returned_false] at hr0 ⊢
          rw [hr0]
          have hpw := wakeOne_pw (β := β)
            { s with nextCid := s.nextCid + 1, buffer := bs,
                     bufPopped := s.bufPopped ++ [id] }
          simp only [pendingIds, wokenIds] at hpw
          rw [add_assoc, add_assoc, hpw]
        · intro p hp
          have := wakeOne_pending_subset hp
          simp only [wakeOne_vals]
          exact H.vals_pending p this
        · intro p hp
          rcases wakeOne_woken_subset hp with h | h
          · simpa only [wakeOne_vals] using H.vals_woken p h
          · simpa only [wakeOne_vals] using H.vals_pending p h
        · intro p hp
          simp only [wakeOne_inflight_false] at hp
          simpa only [wakeOne_vals] using H.vals_inflight p hp
        · intro p hp
          simp only [wakeOne_buffer] at hp
          have : p ∈ s.buffer := by rw [hbuf]; exact List.mem_cons_of_mem _ hp
          simpa only [wakeOne_vals] using H.vals_buffer p this
        · intro d hd
          simp only [wakeOne_delivered] at hd
          simpa only [wakeOne_vals] using H.vals_delivered d hd
        · intro j hj
          simp only [wakeOne_dropped] at hj
          simp only [List.mem_append, List.mem_singleton] at hj
          rcases hj with hj | hj
          · simpa only [wakeOne_vals] using H.vals_dropped j hj
          · rw [hj]
            simpa only [wakeOne_vals] using H.vals_buffer (id, none) hdmem
        · intro j hj
          simp only [wakeOne_settled] at hj
          simp only [wakeOne_buffer, wakeOne_delivered, wakeOne_dropped, bufferIds,
            deliveredSubIds, List.map_append, List.map_cons, List.map_nil,
            List.mem_append, List.mem_singleton]
          rcases H.settled_cases j hj with h | h | h
          · rw [hbufids] at h
            rcases List.mem_cons.mp h with h | h
            · exact Or.inr (Or.inr (Or.inr h))
            · exact Or.inl h
          · exact Or.inr (Or.inl (by simpa [deliveredSubIds] using h))
          · exact Or.inr (Or.inr (Or.inl h))
        · simp only [wakeOne_bufEntered, wakeOne_bufPopped, wakeOne_buffer, bufferIds]
          rw [H.fifo, hbufids, List.append_assoc]
          rfl
  | resume =>
    cases hw : s.woken with
    | nil => simp [step, hw] at hstep
    | cons hd ws =>
      obtain ⟨id, v⟩ := hd
      have hdmem : (id, v) ∈ s.woken := by rw [hw]; exact List.mem_cons_self _ _
      rw [step_resume hw] at hstep
      simp only [Option.some.injEq] at hstep
      subst hstep
      refine ⟨?_, ?_, ?_, ?_, ?_, ?_, ?_, ?_, ?_, ?_, ?_, ?_⟩
      · have hc0 := H.conservation
        simp only [calledIds, pendingIds, wokenIds, inflightIds, bufferIds, deliveredSubIds,
          hw, List.map_append, List.map_cons, List.map_nil, mcoe_append,
          Multiset.coe_singleton, ← Multiset.cons_coe, ← Multiset.singleton_add] at hc0 ⊢
        rw [hc0]
        abel
      · exact H.called_nodup
      · exact H.called_lt
      · have hr0 := H.returned_perm
        simp only [calledIds, pendingIds, wokenIds, hw, List.map_append, List.map_cons,
          List.map_nil, mcoe_append, Multiset.coe_singleton, ← Multiset.cons_coe,
          ← Multiset.singleton_add] at hr0 ⊢
        rw [hr0]
        abel
      · exact H.vals_pending
      · intro p hp
        have : p ∈ s.woken := by rw [hw]; exact List.mem_cons_of_mem _ hp
        exact H.vals_woken p this
      · intro p hp
        simp only [List.mem_append, List.mem_singleton] at hp
        rcases hp with hp | hp
        · exact H.vals_inflight p hp
        · subst hp
          exact H.vals_woken (id, v) hdmem
      · exact H.vals_buffer
      · exact H.vals_delivered
      · exact H.vals_dropped
      · exact H.settled_cases
      · exact H.fifo


end Chan

namespace Chan
variable {β : Type}

theorem run_inv {cap : Option Nat} {es : List (Ev β)} {s : St β}
    (h : run false cap es = some s) : Inv s :=
  foldlM_option_inv (fun _ _ _ H hs => inv_step H hs) es (init β) s inv_init h

theorem lookupId_of_mem_nodup {γ : Type} {l : List (Nat × γ)} {id : Nat} {v : γ}
    (hnd : (l.map Prod.fst).Nodup) (hm : (id, v) ∈ l) : lookupId l id = some v := by
  induction l with
  | nil => simp at hm
  | cons p t ih =>
    obtain ⟨i, w⟩ := p
    simp only [List.map_cons, List.nodup_cons] at hnd
    rcases List.mem_cons.mp hm with hm | hm
    · cases hm
      rw [lookupId, if_pos rfl]
    · have hi : i ≠ id := by
        intro hii
        subst hii
        exact hnd.1 (List.mem_map_of_mem _ hm)
      rw [lookupId, if_neg hi]
      exact ih hnd.2 hm

theorem deliveredSubIds_nodup {s : St β} (H : Inv s) : (deliveredSubIds s).Nodup := by
  rw [List.nodup_iff_count_le_one]
  intro a
  have h1 : (calledIds s : Multiset Nat).count a ≤ 1 := by
    rw [Multiset.coe_count]
    exact List.nodup_iff_count_le_one.mp H.called_nodup a
  rw [H.conservation] at h1
  simp only [Multiset.count_add, Multiset.coe_count] at h1
  omega

end Chan

namespace Chan

/-- Claim C1, counterexample: with `bufferCapacity = 1`, the schedule below
(a first publish is admitted; a second blocks; a consumer arrives; the
settlement of the first delivers to the consumer and wakes the blocked
producer; before its continuation runs, a third publish call sees
`producing.size = 0 < 1` and is admitted; the woken producer then resumes
and re-registers with no capacity re-check) drives the channel to
`producing.size = 2 > 1`. -/
theorem c1_capacity_exceeded :
    (run false (some 1)
        ([.pub (some 10), .pub (some 11), .consume, .settle 0, .pub (some 12), .resume] :
          List (Ev Nat))).map producingSize = some 2 := by rfl

/-- Claim C1 (amended): for every capacity `C >= 1`, under schedules in which
a waiting producer's wakeup is atomic with its resumption (no other publish
call is admitted in between, the `fused` model), the size of the producing
set never exceeds `C`. -/
theorem c1_capacity_bound_atomic_wakeup {β : Type} (C : Nat) (_hC : 1 ≤ C)
    (es : List (Ev β)) (s : St β) (h : run true (some C) es = some s) :
    producingSize s ≤ C :=
  fused_size_le es s h

/-- Witness for `c1_capacity_bound_atomic_wakeup` at capacity 1. -/
theorem c1_capacity_bound_atomic_wakeup_witness :
    producingSize ((run true (some 1) [Ev.pub (some 5)]).get (by rfl)) ≤ 1 :=
  c1_capacity_bound_atomic_wakeup 1 (by decide) [Ev.pub (some 5)] _
    (Option.some_get _).symm

end Chan

namespace Chan

/-- Claim C3, counterexample: after a single `publish` on an unbounded
channel, the returned future has already resolved (`returned = [0]`) although
the value has not settled: it is neither in the ready buffer nor handed to
any consumer (`buffer = []`, `delivered = []`, `settled = []`).  The async
body of `publish` returns right after `producing.add(promise)`; it does not
await the hand-off. -/
theorem c3_resolves_before_handoff :
    (run false none ([.pub (some 7)] : List (Ev Nat))).map
      (fun s => (s.returned, s.buffer, s.delivered, s.settled))
      = some ([0], [], [], []) := by rfl

/-- Claim C3 (amended): the future returned by `publish` resolves exactly
when the submission has been admitted to the in-flight set — immediately
when capacity allows, otherwise upon resumption after a slot frees — and
independently of hand-off or draining: in every reachable state the resolved
publish calls are precisely the calls that are no longer blocked
(`waitingProducers`) nor woken-but-not-resumed. -/
theorem c3_resolves_on_admission {β : Type} (cap : Option Nat) (es : List (Ev β))
    (s : St β) (h : run false cap es = some s) :
    (calledIds s : Multiset Nat) = ↑s.returned + ↑(pendingIds s) + ↑(wokenIds s) :=
  (run_inv h).returned_perm

/-- Witness for `c3_resolves_on_admission`. -/
theorem c3_resolves_on_admission_witness :
    (calledIds ((run false none ([.pub (some 2), .pub (some 3)] : List (Ev Nat))).get
        (by rfl)) : Multiset Nat)
      = ↑((run false none ([.pub (some 2), .pub (some 3)] : List (Ev Nat))).get
          (by rfl)).returned
        + ↑(pendingIds ((run false none ([.pub (some 2), .pub (some 3)] :
            List (Ev Nat))).get (by rfl)))
        + ↑(wokenIds ((run false none ([.pub (some 2), .pub (some 3)] :
            List (Ev Nat))).get (by rfl))) :=
  c3_resolves_on_admission none _ _ (Option.some_get _).symm

/-- Claim C4, counterexample: publish the value `undefined` (`none`), let it
settle into the ready buffer, then call `consume`: the buffer is non-empty
(`[(0, none)]`), yet the consume call pops and discards the entry, registers
itself as a waiting consumer (`consumers = [0]`) and suspends — it does not
return the oldest buffered entry, because `result !== undefined` conflates a
buffered `undefined` with an empty buffer. -/
theorem c4_undefined_pop_suspends :
    (run false none ([.pub none, .settle 0] : List (Ev Nat))).map (fun s => s.buffer)
        = some [(0, none)]
    ∧ (run false none ([.pub none, .settle 0, .consume] : List (Ev Nat))).map
        (fun s => (s.consumers, s.delivered, s.dropped)) = some ([0], [], [0]) :=
  ⟨by rfl, by rfl⟩

/-- Claim C4 (amended): buffered entries enter and leave the ready buffer in
FIFO order (the popped ids are exactly the entry-order prefix of all buffered
ids); when the buffer is non-empty, `consume` pops its oldest entry and, if
the popped value is not `undefined`, returns it immediately to the caller
without registering a waiting consumer; when the buffer is empty, `consume`
registers a waiting consumer and suspends.  (A popped `undefined` value is
the exception established by the counterexample: the entry is discarded and
the call suspends.) -/
theorem c4_fifo_and_immediate_pop {β : Type} (cap : Option Nat) (es : List (Ev β))
    (s : St β) (h : run false cap es = some s) :
    s.bufEntered = s.bufPopped ++ bufferIds s
    ∧ (∀ id b bs, s.buffer = (id, some b) :: bs →
        ∃ s', step false cap s .consume = some s'
          ∧ s'.delivered = s.delivered ++ [(s.nextCid, id, some b)]
          ∧ s'.consumers = s.consumers ∧ s'.buffer = bs)
    ∧ (s.buffer = [] →
        ∃ s', step false cap s .consume = some s'
          ∧ s'.consumers = s.consumers ++ [s.nextCid] ∧ s'.delivered = s.delivered) := by
  refine ⟨(run_inv h).fifo, ?_, ?_⟩
  · intro id b bs hb
    refine ⟨_, step_consume_pop_val false hb, ?_, ?_, ?_⟩
    · rfl
    · simp
    · simp
  · intro hb
    refine ⟨_, step_consume_empty false hb, rfl, rfl⟩

/-- Witness for `c4_fifo_and_immediate_pop`. -/
theorem c4_fifo_and_immediate_pop_witness :
    ((run false none ([.pub (some 1), .settle 0] : List (Ev Nat))).get (by rfl)).bufEntered
      = ((run false none ([.pub (some 1), .settle 0] : List (Ev Nat))).get
          (by rfl)).bufPopped
        ++ bufferIds ((run false none ([.pub (some 1), .settle 0] :
            List (Ev Nat))).get (by rfl)) :=
  (c4_fifo_and_immediate_pop none _ _ (Option.some_get _).symm).1

/-- Claim C5, counterexample: two entries are published and settle into the
buffer; the first has value `undefined`.  Two consume calls then pop the
buffer: entry 0 is popped and discarded without being delivered to anyone
(`delivered` records only entry 1), although it had settled — a settled entry
is dropped without delivery. -/
theorem c5_settled_entry_dropped :
    (run false none
        ([.pub none, .pub (some 3), .settle 0, .settle 1, .consume, .consume] :
          List (Ev Nat))).map
      (fun s => (s.settled, s.delivered, s.dropped, s.inflight, s.buffer))
      = some ([0, 1], [(1, 1, some 3)], [0], [], []) := by rfl

/-- Claim C5 (amended): every per-submission entry is delivered to at most
one consumer, at most once (the delivered submission ids are without
duplicates); an entry can be discarded without delivery only if its settled
value is `undefined`; and every settled entry whose value is not `undefined`
is either still parked in the ready buffer or has been delivered exactly
once. -/
theorem c5_exactly_once {β : Type} (cap : Option Nat) (es : List (Ev β))
    (s : St β) (h : run false cap es = some s) :
    (deliveredSubIds s).Nodup
    ∧ (∀ id ∈ s.dropped, lookupId s.vals id = some none)
    ∧ (∀ id v, (id, v) ∈ s.vals → v ≠ none → id ∈ s.settled →
        id ∈ bufferIds s ∨ (deliveredSubIds s).count id = 1) := by
  have H := run_inv h
  refine ⟨deliveredSubIds_nodup H, H.vals_dropped, ?_⟩
  intro id v hmem hv hsettled
  rcases H.settled_cases id hsettled with hcase | hcase | hcase
  · exact Or.inl hcase
  · exact Or.inr (List.count_eq_one_of_mem (deliveredSubIds_nodup H) hcase)
  · exfalso
    have h1 := H.vals_dropped id hcase
    have h2 := lookupId_of_mem_nodup H.called_nodup hmem
    rw [h1] at h2
    exact hv (Option.some.inj h2).symm

/-- Witness for `c5_exactly_once`. -/
theorem c5_exactly_once_witness :
    (deliveredSubIds ((run false none
        ([.pub (some 4), .consume, .settle 0] : List (Ev Nat))).get (by rfl))).Nodup :=
  (c5_exactly_once none _ _ (Option.some_get _).symm).1

end Chan

namespace Chan
variable {β : Type}

theorem lookupId_snd_erase {γ : Type} {l : List (Nat × γ)} {id : Nat} {v : γ}
    (hl : lookupId l id = some v) :
    (List.map Prod.snd l : Multiset γ)
      = {v} + ↑(List.map Prod.snd (eraseId l id)) := by
  have hperm := (lookupId_perm hl).map Prod.snd
  rw [Multiset.coe_eq_coe.mpr hperm, List.map_cons, ← Multiset.cons_coe,
    ← Multiset.singleton_add]

end Chan

namespace MapC
variable {α β : Type}

/-- Conservation invariant of the `_mapConcurrently` system: the multiset of
transform results of the whole input splits exactly over the unread suffix,
the unsettled promises, the ready buffer, the yielded output and the
discarded (`undefined`) pops; the generator only reaches the drain loop and
the final state with the input exhausted; a finished generator has an empty
channel; only `undefined` values are ever discarded. -/
structure Inv (input : List α) (f : α → Option β) (s : St α β) : Prop where
  conserve : (List.map f input : Multiset (Option β)) =
    ↑(List.map f s.rest) + ↑(List.map Prod.snd s.inflight)
      + ↑(List.map Prod.snd s.buffer) + ↑s.output + ↑s.dropped
  drain_rest : s.phase = .drainTop ∨ s.phase = .waitVal false ∨ s.phase = .finished →
    s.rest = []
  fin_empty : s.phase = .finished → s.inflight = [] ∧ s.buffer = []
  dropped_none : ∀ v ∈ s.dropped, v = none

theorem minv_init (input : List α) (f : α → Option β) :
    Inv input f (init α β input) := by
  refine ⟨by simp [init], ?_, ?_, ?_⟩ <;> simp [init]

theorem minv_step {input : List α} {f : α → Option β} {N : Nat} {s s' : St α β} {e : Ev}
    (H : Inv input f s) (hstep : step f N s e = some s') : Inv input f s' := by
  cases e with
  | gen =>
    cases hph : s.phase with
    | loopTop =>
      cases hrest : s.rest with
      | cons i r =>
        simp only [step, hph, hrest] at hstep
        split at hstep
        · -- producing.size >= concurrency: consume at once
          simp only [Option.some.injEq] at hstep
          subst hstep
          unfold consumeStep
          cases hbuf : s.buffer with
          | nil =>
            simp only
            refine ⟨?_, by simp, by simp, H.dropped_none⟩
            have hc := H.conserve
            rw [hrest, hbuf] at hc
            simp only [List.map_cons, List.map_append, List.map_nil, Chan.mcoe_append,
              Multiset.coe_singleton, ← Multiset.cons_coe, ← Multiset.singleton_add] at hc ⊢
            rw [hc]
            abel
          | cons q bs =>
            obtain ⟨qid, qv⟩ := q
            cases qv with
            | some b =>
              simp only
              refine ⟨?_, by simp, by simp, H.dropped_none⟩
              have hc := H.conserve
              rw [hrest, hbuf] at hc
              simp only [List.map_cons, List.map_append, List.map_nil, Chan.mcoe_append,
                Multiset.coe_singleton, ← Multiset.cons_coe,
                ← Multiset.singleton_add] at hc ⊢
              rw [hc]
              abel
            | none =>
              simp only
              refine ⟨?_, by simp, by simp, ?_⟩
              · have hc := H.conserve
                rw [hrest, hbuf] at hc
                simp only [List.map_cons, List.map_append, List.map_nil, Chan.mcoe_append,
                  Multiset.coe_singleton, ← Multiset.cons_coe,
                  ← Multiset.singleton_add] at hc ⊢
                rw [hc]
                abel
              · intro v hv
                simp only [List.mem_append, List.mem_singleton] at hv
                rcases hv with hv | hv
                · exact H.dropped_none v hv
                · exact hv
        · simp only [Option.some.injEq] at hstep
          subst hstep
          refine ⟨?_, by simp, by simp, H.dropped_none⟩
          have hc := H.conserve
          rw [hrest] at hc
          simp only [List.map_cons, List.map_append, List.map_nil, Chan.mcoe_append,
            Multiset.coe_singleton, ← Multiset.cons_coe, ← Multiset.singleton_add] at hc ⊢
          rw [hc]
          abel
      | nil =>
        simp only [step, hph, hrest, Option.some.injEq] at hstep
        subst hstep
        exact ⟨by simpa [hrest] using H.conserve, fun _ => rfl, by simp, H.dropped_none⟩
    | drainTop =>
      have hrest : s.rest = [] := H.drain_rest (Or.inl hph)
      simp only [step, hph] at hstep
      split at hstep
      · rename_i hz
        simp only [Option.some.injEq] at hstep
        subst hstep
        have hlen : s.inflight.length = 0 ∧ s.buffer.length = 0 := by
          simp only [producingSize] at hz
          omega
        have hinf : s.inflight = [] := List.length_eq_zero.mp hlen.1
        have hbuf : s.buffer = [] := List.length_eq_zero.mp hlen.2
        exact ⟨H.conserve, fun _ => hrest, fun _ => ⟨hinf, hbuf⟩, H.dropped_none⟩
      · simp only [Option.some.injEq] at hstep
        subst hstep
        unfold consumeStep
        cases hbuf : s.buffer with
        | nil =>
          simp only
          exact ⟨by simpa [hbuf] using H.conserve, fun _ => hrest, by simp, H.dropped_none⟩
        | cons q bs =>
          obtain ⟨qid, qv⟩ := q
          cases qv with
          | some b =>
            simp only
            refine ⟨?_, fun _ => hrest, by simp, H.dropped_none⟩
            have hc := H.conserve
            rw [hbuf] at hc
            simp only [List.map_cons, List.map_append, List.map_nil, Chan.mcoe_append,
              Multiset.coe_singleton, ← Multiset.cons_coe, ← Multiset.singleton_add] at hc ⊢
            rw [hc]
            abel
          | none =>
            simp only
            refine ⟨?_, fun _ => hrest, by simp, ?_⟩
            · have hc := H.conserve
              rw [hbuf] at hc
              simp only [List.map_cons, List.map_append, List.map_nil, Chan.mcoe_append,
                Multiset.coe_singleton, ← Multiset.cons_coe, ← Multiset.singleton_add] at hc ⊢
              rw [hc]
              abel
            · intro v hv
              simp only [List.mem_append, List.mem_singleton] at hv
              rcases hv with hv | hv
              · exact H.dropped_none v hv
              · exact hv
    | waitVal b => simp [step, hph] at hstep
    | finished => simp [step, hph] at hstep
  | settle id =>
    cases hl : Chan.lookupId s.inflight id with
    | none => simp [step, hl] at hstep
    | some v =>
      have herase := Chan.lookupId_snd_erase hl
      cases hph : s.phase with
      | waitVal toLoop =>
        simp only [step, hl, hph, Option.some.injEq] at hstep
        subst hstep
        refine ⟨?_, ?_, by cases toLoop <;> simp, H.dropped_none⟩
        · have hc := H.conserve
          rw [herase] at hc
          simp only [List.map_append, List.map_cons, List.map_nil, Chan.mcoe_append,
            Multiset.coe_singleton, ← Multiset.cons_coe, ← Multiset.singleton_add] at hc ⊢
          rw [hc]
          abel
        · intro hp
          cases toLoop with
          | true => simp at hp
          | false => exact H.drain_rest (Or.inr (Or.inl hph))
      | loopTop =>
        simp only [step, hl, hph, Option.some.injEq] at hstep
        subst hstep
        refine ⟨?_, by simp, by simp, H.dropped_none⟩
        have hc := H.conserve
        rw [herase] at hc
        simp only [List.map_append, List.map_cons, List.map_nil, Chan.mcoe_append,
          Multiset.coe_singleton, ← Multiset.cons_coe, ← Multiset.singleton_add] at hc ⊢
        rw [hc]
        abel
      | drainTop =>
        simp only [step, hl, hph, Option.some.injEq] at hstep
        subst hstep
        refine ⟨?_, ?_, by simp, H.dropped_none⟩
        · have hc := H.conserve
          rw [herase] at hc
          simp only [List.map_append, List.map_cons, List.map_nil, Chan.mcoe_append,
            Multiset.coe_singleton, ← Multiset.cons_coe, ← Multiset.singleton_add] at hc ⊢
          rw [hc]
          abel
        · intro _
          exact H.drain_rest (Or.inl hph)
      | finished =>
        exfalso
        have := (H.fin_empty hph).1
        rw [this] at hl
        simp [Chan.lookupId] at hl

theorem mrun_inv {input : List α} {f : α → Option β} {N : Nat} {es : List Ev}
    {s : St α β} (h : run input f N es = some s) : Inv input f s :=
  foldlM_option_inv (fun _ _ _ H hs => minv_step H hs) es (init α β input) s
    (minv_init input f) h

end MapC

namespace MapC

/-- Claim C2, counterexample: a completed (`finished`) consumption of
`_mapConcurrently [0,1] f 2` with `f 0 = undefined`, `f 1 = some 1` outputs
only `[some 1]`: the multiset of results is not preserved — the `undefined`
result settled into the buffer before the generator consumed, and the pop
discarded it through `result !== undefined`. -/
theorem c2_result_dropped :
    (run [0, 1] (fun i => if i = 0 then (none : Option Nat) else some i) 2
        [.gen, .settle 0, .gen, .settle 1, .gen, .gen]).map
      (fun s => (s.phase, s.output, s.dropped))
      = some (.finished, [some 1], [none]) := by rfl

/-- Claim C2 (amended): for every finite source, every concurrency `N >= 1`
and every transform none of whose results is `undefined`, any schedule under
which the generator completes yields exactly the multiset of transform
results of the source — nothing skipped, nothing duplicated, in some
order. -/
theorem c2_multiset_exact {α β : Type} (input : List α) (f : α → Option β)
    (N : Nat) (_hN : 1 ≤ N) (hf : ∀ i ∈ input, f i ≠ none) (es : List Ev)
    (s : St α β) (h : run input f N es = some s) (hfin : s.phase = .finished) :
    (s.output : Multiset (Option β)) = ↑(List.map f input) := by
  have H := mrun_inv h
  have hrest : s.rest = [] := H.drain_rest (Or.inr (Or.inr hfin))
  obtain ⟨hinf, hbuf⟩ := H.fin_empty hfin
  have hc := H.conserve
  rw [hrest, hinf, hbuf] at hc
  simp only [List.map_nil, Multiset.coe_nil, zero_add, add_zero] at hc
  have hdrop : s.dropped = [] := by
    cases hd : s.dropped with
    | nil => rfl
    | cons d ds =>
      exfalso
      have hdn : d = none := H.dropped_none d (hd ▸ List.mem_cons_self _ _)
      have hmem : (none : Option β) ∈ (List.map f input : Multiset (Option β)) := by
        rw [hc, hd]
        subst hdn
        exact Multiset.mem_add.mpr (Or.inr (by simp))
      rw [Multiset.mem_coe, List.mem_map] at hmem
      obtain ⟨i, hi, hfi⟩ := hmem
      exact hf i hi hfi
  rw [hdrop] at hc
  simpa using hc.symm

/-- Witness for `c2_multiset_exact` on `[0, 1]` with `f i = some (i + 1)`
and concurrency 1. -/
theorem c2_multiset_exact_witness :
    ((((run [0, 1] (fun i => some (i + 1)) 1
          [.gen, .settle 0, .gen, .settle 1, .gen, .gen]).get (by rfl)).output :
        List (Option Nat)) : Multiset (Option Nat))
      = ↑(List.map (fun i => some (i + 1)) [0, 1]) :=
  c2_multiset_exact [0, 1] (fun i => some (i + 1)) 1 (by decide) (by decide)
    [.gen, .settle 0, .gen, .settle 1, .gen, .gen] _ (Option.some_get _).symm (by rfl)

end MapC

namespace ConcatSeq

/-- Claim C6, counterexample: `concat` invoked with `tapLimit = 1` and no
output limit (`outputConcurrency` undefined) does not take the sequential
nested-iteration bypass: the branch condition requires
`outputConcurrency === 1` as well, so the call is routed to
`_concatConcurrently` (the channel path); likewise for `tapLimit = 0`. -/
theorem c6_taplimit_one_not_bypassed :
    concatChoice (some 1) none = .concurrent
    ∧ concatChoice (some 0) none = .concurrent := ⟨by rfl, by rfl⟩

/-- Claim C6 (amended): `concat` with no concurrency parameters
(`inputConcurrency == undefined`) — or with `inputConcurrency === 1` and
`outputConcurrency === 1` — bypasses the channel and is strict sequential
concatenation: it fully drains source 1, then source 2, and so on (equal to
`List.flatten`); in particular on `[[1,2],[3,4]]` it yields exactly
`[1,2,3,4]`.  With `tapLimit <= 1` but no output limit the concurrent
channel path is selected instead (see the counterexample). -/
theorem c6_sequential_mode :
    (∀ oc : Option Nat, concatChoice none oc = .sequential)
    ∧ concatChoice (some 1) (some 1) = .sequential
    ∧ (∀ (γ : Type) (ls : List (List γ)), concatSeq ls = ls.flatten)
    ∧ concatSeq [[1, 2], [3, 4]] = ([1, 2, 3, 4] : List Nat) := by
  refine ⟨?_, by rfl, ?_, by rfl⟩
  · intro oc
    simp [concatChoice]
  · intro γ ls
    induction ls with
    | nil => rfl
    | cons l t ih => simp [concatSeq, ih]

end ConcatSeq

namespace DispatchSrc

/-- Claim C9, code-bug evidence: `pubsub` of `src/src/lib/pubsub.ts` exports
neither `output` nor `end`, so `_dispatch` of `src/src/dispatch.ts` binds
`loop` and `end` to `undefined` and throws a TypeError on the claim scenario
input `[1,2,3,4,5,6]` instead of re-emitting the items; the repository's own
`dispatch.test.ts` asserts the claimed behavior (`[1,2,3,4,5,6]` out, branch
A observing `[1,3,5]`, branch B observing `[2,4,6]`). -/
theorem c9_dispatch_member_missing :
    memberOrUndefined "output" = none
    ∧ memberOrUndefined "end" = none
    ∧ dispatchRun [1, 2, 3, 4, 5, 6] = .error "TypeError: not a function" :=
  ⟨by rfl, by rfl, by rfl⟩

end DispatchSrc

namespace Chan2
variable {β : Type}

@[simp] theorem wakeOne2_buffer (s : St β) : (wakeOne s).buffer = s.buffer := by
  unfold wakeOne
  split <;> rfl

@[simp] theorem wakeOne2_delivered (s : St β) : (wakeOne s).delivered = s.delivered := by
  unfold wakeOne
  split <;> rfl

@[simp] theorem wakeOne_inflight (s : St β) : (wakeOne s).inflight = s.inflight := by
  unfold wakeOne
  split <;> rfl

@[simp] theorem wakeOne2_consumers (s : St β) : (wakeOne s).consumers = s.consumers := by
  unfold wakeOne
  split <;> rfl

@[simp] theorem wakeOne_skipDropped (s : St β) : (wakeOne s).skipDropped = s.skipDropped := by
  unfold wakeOne
  split <;> rfl

/-- The sentinel settlement shape: a submission that settles to `'skip'` is
deleted from `producing` and nothing else happens — no consumer hand-off, no
buffering, no `waitingProducers` notify. -/
theorem step_settle_skip [DecidableEq β] {cap : Option Nat} {s : St β} {id : Nat}
    (hl : Chan.lookupId s.inflight id = some (.ok .skip)) :
    step cap s (.settle id) =
      some { s with inflight := Chan.eraseId s.inflight id,
                    skipDropped := s.skipDropped ++ [id] } := by
  simp [step, hl]

/-- The skip-free invariant of the revised channel: the sentinel value never
reaches the ready buffer nor any consumer. -/
structure Inv2 (s : St β) : Prop where
  buffer_no_skip : ∀ p ∈ s.buffer, p.2 ≠ DV.skip
  delivered_no_skip : ∀ d ∈ s.delivered, d.2.2 ≠ DV.skip

theorem inv2_step [DecidableEq β] {cap : Option Nat} {s s' : St β} {e : Ev β}
    (H : Inv2 s) (hstep : step cap s e = some s') : Inv2 s' := by
  cases e with
  | pub x =>
    simp only [step] at hstep
    split at hstep <;>
      (simp only [Option.some.injEq] at hstep; subst hstep;
       exact ⟨H.buffer_no_skip, H.delivered_no_skip⟩)
  | settle id =>
    cases hl : Chan.lookupId s.inflight id with
    | none => simp [step, hl] at hstep
    | some x =>
      cases x with
      | error e =>
        simp only [step, hl, Option.some.injEq] at hstep
        subst hstep
        exact ⟨H.buffer_no_skip, H.delivered_no_skip⟩
      | ok v =>
        by_cases hskip : v = DV.skip
        · subst hskip
          rw [step_settle_skip hl] at hstep
          simp only [Option.some.injEq] at hstep
          subst hstep
          exact ⟨H.buffer_no_skip, H.delivered_no_skip⟩
        · simp only [step, hl, if_neg hskip] at hstep
          cases hcons : s.consumers with
          | cons c cs =>
            rw [hcons] at hstep
            simp only [Option.some.injEq] at hstep
            subst hstep
            refine ⟨?_, ?_⟩
            · simp only [wakeOne2_buffer]
              exact H.buffer_no_skip
            · simp only [wakeOne2_delivered]
              intro d hd
              rcases List.mem_append.mp hd with hd | hd
              · exact H.delivered_no_skip d hd
              · simp only [List.mem_singleton] at hd
                subst hd
                exact hskip
          | nil =>
            rw [hcons] at hstep
            simp only [Option.some.injEq] at hstep
            subst hstep
            refine ⟨?_, H.delivered_no_skip⟩
            intro p hp
            rcases List.mem_append.mp hp with hp | hp
            · exact H.buffer_no_skip p hp
            · simp only [List.mem_singleton] at hp
              subst hp
              exact hskip
  | consume =>
    simp only [step] at hstep
    cases hbuf : s.buffer with
    | nil =>
      rw [hbuf] at hstep
      simp only [Option.some.injEq] at hstep
      subst hstep
      exact ⟨fun p hp => (nomatch hp), H.delivered_no_skip⟩
    | cons q bs =>
      obtain ⟨id, v⟩ := q
      rw [hbuf] at hstep
      simp only [Option.some.injEq] at hstep
      subst hstep
      have hvq : v ≠ DV.skip :=
        H.buffer_no_skip (id, v) (hbuf ▸ List.mem_cons_self _ _)
      refine ⟨?_, ?_⟩
      · simp only [wakeOne2_buffer]
        intro p hp
        exact H.buffer_no_skip p (hbuf ▸ List.mem_cons_of_mem _ hp)
      · simp only [wakeOne2_delivered]
        intro d hd
        rcases List.mem_append.mp hd with hd | hd
        · exact H.delivered_no_skip d hd
        · simp only [List.mem_singleton] at hd
          subst hd
          exact hvq
  | resume =>
    simp only [step] at hstep
    cases hw : s.woken with
    | nil => rw [hw] at hstep; cases hstep
    | cons q ws =>
      obtain ⟨id, x⟩ := q
      rw [hw] at hstep
      simp only [Option.some.injEq] at hstep
      subst hstep
      exact ⟨H.buffer_no_skip, H.delivered_no_skip⟩

theorem run_inv2 [DecidableEq β] {cap : Option Nat} {es : List (Ev β)} {s : St β}
    (h : run cap es = some s) : Inv2 s :=
  foldlM_option_inv (fun _ _ _ H hs => inv2_step H hs) es (init β) s
    ⟨by simp [init], by simp [init]⟩ h

/-- Claim C10: in the revised channel, a submission whose value settles to
the `'skip'` sentinel is removed from the in-flight set at settlement and is
silently dropped: it is never placed in the ready buffer nor handed to any
consumer (in no reachable state does a skip value appear in either), and its
settlement changes nothing but the in-flight set; every other value settles
normally — handed to the first waiting consumer if one exists, otherwise
parked in the ready buffer. -/
theorem c10_skip_silently_dropped {β : Type} [DecidableEq β] (cap : Option Nat)
    (es : List (Ev β)) (s : St β) (h : run cap es = some s) :
    (∀ p ∈ s.buffer, p.2 ≠ DV.skip)
    ∧ (∀ d ∈ s.delivered, d.2.2 ≠ DV.skip)
    ∧ (∀ id, Chan.lookupId s.inflight id = some (.ok .skip) →
        step cap s (.settle id) =
          some { s with inflight := Chan.eraseId s.inflight id,
                        skipDropped := s.skipDropped ++ [id] })
    ∧ (∀ id b c cs, Chan.lookupId s.inflight id = some (.ok (.dval b)) →
        s.consumers = c :: cs →
        ∃ s', step cap s (.settle id) = some s'
          ∧ s'.delivered = s.delivered ++ [(c, id, DV.dval b)]
          ∧ s'.buffer = s.buffer)
    ∧ (∀ id b, Chan.lookupId s.inflight id = some (.ok (.dval b)) →
        s.consumers = [] →
        ∃ s', step cap s (.settle id) = some s'
          ∧ s'.buffer = s.buffer ++ [(id, DV.dval b)]
          ∧ s'.delivered = s.delivered) := by
  have H := run_inv2 h
  refine ⟨H.buffer_no_skip, H.delivered_no_skip, ?_, ?_, ?_⟩
  · intro id hl
    exact step_settle_skip hl
  · intro id b c cs hl hcons
    have hstep2 : step cap s (.settle id) =
        some (wakeOne
          { s with inflight := Chan.eraseId s.inflight id, consumers := cs,
                   delivered := s.delivered ++ [(c, id, DV.dval b)] }) := by
      simp [step, hl, hcons]
    exact ⟨_, hstep2, by simp, by simp⟩
  · intro id b hl hcons
    have hstep2 : step cap s (.settle id) =
        some { s with inflight := Chan.eraseId s.inflight id,
                      buffer := s.buffer ++ [(id, DV.dval b)] } := by
      simp [step, hl, hcons]
    exact ⟨_, hstep2, by simp, by simp⟩

/-- Witness for `c10_skip_silently_dropped`: after `publish('skip')` the
settlement of submission 0 erases it from the in-flight set and records the
drop, touching nothing else. -/
theorem c10_skip_silently_dropped_witness :
    step none ((run none ([.pub (.ok .skip)] : List (Ev Nat))).get (by rfl))
        (.settle 0) =
      some { (run none ([.pub (.ok .skip)] : List (Ev Nat))).get (by rfl) with
             inflight := Chan.eraseId
               ((run none ([.pub (.ok .skip)] : List (Ev Nat))).get (by rfl)).inflight 0,
             skipDropped :=
               ((run none ([.pub (.ok .skip)] : List (Ev Nat))).get
                   (by rfl)).skipDropped ++ [0] } :=
  (c10_skip_silently_dropped none _ _ (Option.some_get _).symm).2.2.1 0 (by rfl)

end Chan2

namespace MapErr

/-- Claim C8, counterexample: two items, the first resolving to `10`, the
second rejecting with `"boom"`.  Schedule: both are published; the first
settles into the ready buffer (it is settled *before* the error is
recorded); the output loop starts and pops it, parking at its outer await
with the popped value's accept still queued; the rejection of the second
item then fires on the live `_onReadError` slot and wins the race: the run
rejects with `"boom"` having yielded nothing — the already-settled, popped
result is discarded, contradicting the claim that every result settled
before the error is yielded first. -/
theorem c8_settled_result_discarded :
    (run none ([.ok (.dval 10), .error "boom"] : List (Except String (Chan2.DV Nat)))
        [.ipull, .ipull, .settle 0]).map (fun s => s.buffer)
      = some [(0, .dval 10)]
    ∧ (run none ([.ok (.dval 10), .error "boom"] : List (Except String (Chan2.DV Nat)))
        [.ipull, .ipull, .settle 0, .ostart, .settle 1]).map
        (fun s => (s.outp, s.output, s.errored))
      = some (.failed "boom", [], [(1, "boom")]) :=
  ⟨by rfl, by rfl⟩

/-- Claim C8 (amended): the error race is schedule-dependent — a recorded
error rejects the output at the next receive whose promise slot is live,
and settled-but-not-yet-yielded results may be discarded (see the
counterexample).  Under the prompt schedule below, the specification's own
scenario holds: with five items whose transform rejects on the third, the
output yields the first two results and then rejects with that error, while
the two already-admitted later items remain in flight and are discarded. -/
theorem c8_two_results_then_reject :
    (run none
        ([.ok (.dval 10), .ok (.dval 20), .error "boom", .ok (.dval 40),
          .ok (.dval 50)] : List (Except String (Chan2.DV Nat)))
        [.ipull, .ipull, .ostart, .settle 0, .oaccept, .onext, .settle 1, .oaccept,
         .onext, .ipull, .ipull, .ipull, .settle 2]).map
      (fun s => (s.outp, s.output, s.errored, s.inflight))
      = some (.failed "boom", [.dval 10, .dval 20], [(2, "boom")],
          [(3, .ok (.dval 40)), (4, .ok (.dval 50))]) := by rfl

end MapErr

namespace Race
variable {α : Type} {γ : Type}

theorem lookupId_eq_none_iff {cs : List (Nat × γ)} {k : Nat} :
    Chan.lookupId cs k = none ↔ k ∉ cs.map Prod.fst := by
  induction cs with
  | nil => simp [Chan.lookupId]
  | cons p t ih =>
    obtain ⟨i, w⟩ := p
    by_cases hik : i = k
    · subst hik
      simp [Chan.lookupId]
    · rw [Chan.lookupId, if_neg hik]
      simp only [List.map_cons, List.mem_cons, ih]
      constructor
      · intro h hmem
        rcases hmem with h2 | h2
        · exact hik h2.symm
        · exact h h2
      · intro h
        exact fun h2 => h (Or.inr h2)

theorem lookup_setEntry_self (cs : List (Nat × γ)) (k : Nat) (v : γ) :
    Chan.lookupId (setEntry cs k v) k = some v := by
  induction cs with
  | nil => simp [setEntry, Chan.lookupId]
  | cons p t ih =>
    obtain ⟨i, w⟩ := p
    by_cases hik : i = k
    · subst hik
      rw [setEntry, if_pos rfl, Chan.lookupId, if_pos rfl]
    · rw [setEntry, if_neg hik, Chan.lookupId, if_neg hik]
      exact ih

theorem lookup_setEntry_ne {cs : List (Nat × γ)} {j k : Nat} (h : j ≠ k) (v : γ) :
    Chan.lookupId (setEntry cs k v) j = Chan.lookupId cs j := by
  induction cs with
  | nil => simp [setEntry, Chan.lookupId, Ne.symm h]
  | cons p t ih =>
    obtain ⟨i, w⟩ := p
    by_cases hik : i = k
    · have hij : i ≠ j := by rw [hik]; exact Ne.symm h
      rw [setEntry, if_pos hik, Chan.lookupId, if_neg (Ne.symm h), Chan.lookupId,
        if_neg hij]
    · rw [setEntry, if_neg hik, Chan.lookupId, Chan.lookupId]
      by_cases hij : i = j
      · rw [if_pos hij, if_pos hij]
      · rw [if_neg hij, if_neg hij]
        exact ih

theorem lookup_eraseId_ne {cs : List (Nat × γ)} {j k : Nat} (h : j ≠ k) :
    Chan.lookupId (Chan.eraseId cs k) j = Chan.lookupId cs j := by
  induction cs with
  | nil => simp [Chan.eraseId]
  | cons p t ih =>
    obtain ⟨i, w⟩ := p
    by_cases hik : i = k
    · have hij : i ≠ j := by rw [hik]; exact Ne.symm h
      rw [Chan.eraseId, if_pos hik, Chan.lookupId, if_neg hij]
    · rw [Chan.eraseId, if_neg hik, Chan.lookupId, Chan.lookupId]
      by_cases hij : i = j
      · rw [if_pos hij, if_pos hij]
      · rw [if_neg hij, if_neg hij]
        exact ih

theorem keys_eraseId (cs : List (Nat × γ)) (k : Nat) :
    (Chan.eraseId cs k).map Prod.fst = (cs.map Prod.fst).erase k := by
  induction cs with
  | nil => simp [Chan.eraseId]
  | cons p t ih =>
    obtain ⟨i, w⟩ := p
    by_cases hik : i = k
    · subst hik
      rw [Chan.eraseId, if_pos rfl]
      simp [List.erase_cons_head]
    · rw [Chan.eraseId, if_neg hik]
      simp only [List.map_cons]
      rw [List.erase_cons_tail]
      · rw [ih]
      · simp [hik]

theorem lookup_eraseId_self {cs : List (Nat × γ)} {k : Nat}
    (hnd : (cs.map Prod.fst).Nodup) :
    Chan.lookupId (Chan.eraseId cs k) k = none := by
  rw [lookupId_eq_none_iff, keys_eraseId]
  intro hmem
  exact (hnd.mem_erase_iff.mp hmem).1 rfl

theorem keys_setEntry_mem {cs : List (Nat × γ)} {k : Nat} {w : γ}
    (h : Chan.lookupId cs k = some w) (v : γ) :
    (setEntry cs k v).map Prod.fst = cs.map Prod.fst := by
  induction cs with
  | nil => simp [Chan.lookupId] at h
  | cons p t ih =>
    obtain ⟨i, u⟩ := p
    by_cases hik : i = k
    · subst hik
      rw [setEntry, if_pos rfl]
      simp
    · rw [Chan.lookupId, if_neg hik] at h
      rw [setEntry, if_neg hik]
      simp only [List.map_cons]
      rw [ih h]

theorem keys_setEntry_new {cs : List (Nat × γ)} {k : Nat}
    (h : Chan.lookupId cs k = none) (v : γ) :
    (setEntry cs k v).map Prod.fst = cs.map Prod.fst ++ [k] := by
  induction cs with
  | nil => simp [setEntry]
  | cons p t ih =>
    obtain ⟨i, u⟩ := p
    by_cases hik : i = k
    · subst hik
      rw [Chan.lookupId, if_pos rfl] at h
      cases h
    · rw [Chan.lookupId, if_neg hik] at h
      rw [setEntry, if_neg hik]
      simp only [List.map_cons, List.cons_append]
      rw [ih h]

theorem getElem?_cons_eraseIdx_perm {l : List γ} {n : Nat} {x : γ}
    (h : l[n]? = some x) : l.Perm (x :: l.eraseIdx n) := by
  induction l generalizing n with
  | nil => simp at h
  | cons y t ih =>
    cases n with
    | zero =>
      simp only [List.getElem?_cons_zero, Option.some.injEq] at h
      subst h
      simp [List.eraseIdx]
    | succ m =>
      simp only [List.getElem?_cons_succ] at h
      have := ih h
      simp only [List.eraseIdx]
      exact (this.cons y).trans (List.Perm.swap _ _ _)

end Race

namespace Race
variable {α : Type}

/-- The set of sources counted by `countActiveIterators`: keys of `counters`
together with `active`. -/
def aset (ks a : List Nat) : Finset Nat := ks.toFinset ∪ a.toFinset

theorem countActive_eq_card {s : St α}
    (hk : (s.counters.map Prod.fst).Nodup) (ha : s.active.Nodup) :
    countActive s = (aset (s.counters.map Prod.fst) s.active).card := by
  have hpred : ∀ k ∈ s.active, ((Chan.lookupId s.counters k).isNone)
      = decide (k ∉ s.counters.map Prod.fst) := by
    intro k _
    by_cases hm : k ∈ s.counters.map Prod.fst
    · cases hlk : Chan.lookupId s.counters k with
      | none => exact absurd (lookupId_eq_none_iff.mp hlk) (by simp [hm])
      | some c => simp [hm]
    · rw [lookupId_eq_none_iff.mpr hm]
      simp [hm]
  rw [countActive, List.filter_congr hpred]
  have hdisj : Disjoint (s.counters.map Prod.fst).toFinset
      ((s.active.filter (fun k => decide (k ∉ s.counters.map Prod.fst))).toFinset) := by
    rw [Finset.disjoint_left]
    intro x hx hx2
    rw [List.mem_toFinset] at hx hx2
    rw [List.mem_filter] at hx2
    exact absurd (List.mem_toFinset.mpr hx) (by simpa using hx2.2)
  have hcard : (aset (s.counters.map Prod.fst) s.active).card
      = (s.counters.map Prod.fst).toFinset.card
        + ((s.active.filter (fun k => decide (k ∉ s.counters.map Prod.fst))).toFinset).card := by
    rw [← Finset.card_union_of_disjoint hdisj]
    congr 1
    ext x
    simp only [aset, Finset.mem_union, List.mem_toFinset, List.mem_filter,
      decide_eq_true_eq]
    constructor
    · intro h
      rcases h with h | h
      · exact Or.inl h
      · by_cases hm : x ∈ s.counters.map Prod.fst
        · exact Or.inl hm
        · exact Or.inr ⟨h, by simpa using hm⟩
    · intro h
      rcases h with h | h
      · exact Or.inl h
      · exact Or.inr h.1
  rw [hcard, List.toFinset_card_of_nodup hk,
    List.toFinset_card_of_nodup (ha.filter _), List.length_map]

theorem aset_append_active (ks a : List Nat) (k : Nat) :
    aset ks (a ++ [k]) = insert k (aset ks a) := by
  ext x
  simp only [aset, Finset.mem_union, List.mem_toFinset, List.mem_append,
    List.mem_singleton, Finset.mem_insert]
  tauto

theorem aset_append_keys (ks a : List Nat) (k : Nat) :
    aset (ks ++ [k]) a = insert k (aset ks a) := by
  ext x
  simp only [aset, Finset.mem_union, List.mem_toFinset, List.mem_append,
    List.mem_singleton, Finset.mem_insert]
  tauto

theorem aset_erase_active_subset (ks a : List Nat) (k : Nat) :
    aset ks (a.erase k) ⊆ aset ks a := by
  intro x hx
  simp only [aset, Finset.mem_union, List.mem_toFinset] at hx ⊢
  rcases hx with hx | hx
  · exact Or.inl hx
  · exact Or.inr (List.erase_subset _ _ hx)

theorem aset_erase_keys_subset (ks a : List Nat) (k : Nat) :
    aset (ks.erase k) a ⊆ aset ks a := by
  intro x hx
  simp only [aset, Finset.mem_union, List.mem_toFinset] at hx ⊢
  rcases hx with hx | hx
  · exact Or.inl (List.erase_subset _ _ hx)
  · exact Or.inr hx

theorem aset_erase_active (ks : List Nat) {a : List Nat} (ha : a.Nodup) {k : Nat}
    (hk : k ∉ ks) : aset ks (a.erase k) = (aset ks a).erase k := by
  ext x
  simp only [aset, Finset.mem_union, List.mem_toFinset, Finset.mem_erase,
    ha.mem_erase_iff]
  constructor
  · intro h
    rcases h with h | h
    · exact ⟨fun hxk => hk (hxk ▸ h), Or.inl h⟩
    · exact ⟨h.1, Or.inr h.2⟩
  · intro ⟨hne, h⟩
    rcases h with h | h
    · exact Or.inl h
    · exact Or.inr ⟨hne, h⟩

theorem aset_erase_keys {ks : List Nat} (hks : ks.Nodup) (a : List Nat) {k : Nat}
    (hk : k ∉ a) : aset (ks.erase k) a = (aset ks a).erase k := by
  ext x
  simp only [aset, Finset.mem_union, List.mem_toFinset, Finset.mem_erase,
    hks.mem_erase_iff]
  constructor
  · intro h
    rcases h with h | h
    · exact ⟨h.1, Or.inl h.2⟩
    · exact ⟨fun hxk => hk (hxk ▸ h), Or.inr h⟩
  · intro ⟨hne, h⟩
    rcases h with h | h
    · exact Or.inl ⟨hne, h⟩
    · exact Or.inr h

end Race


namespace Race
variable {α : Type}

/-- Multiset of sources of pumps blocked inside `await publish` (waiting in
`waitingProducers`, or woken with their continuation queued). -/
def pw (s : St α) : Multiset Nat :=
  ↑(s.pending.map PWaiter.src) + ↑(s.woken.map PWaiter.src)

/-- Sources tracked anywhere in the multiplexer state. -/
def tracks (s : St α) (j : Nat) : Prop :=
  j ∈ s.counters.map Prod.fst ∨ j ∈ s.active ∨ j ∈ s.pumps.map Prod.fst
    ∨ j ∈ pw s ∨ j ∈ s.inflight.map Prod.fst ∨ j ∈ s.buffer.map Prod.fst
    ∨ (∃ it, s.cons = CState.cgot j it)

/-- Contribution of the consume loop position to a source's counter. -/
def gotTerm : CState α → Nat → Int
  | .cgot i _, j => if i = j then 1 else 0
  | .ctop, _ => 0
  | .cwait, _ => 0
  | .cdone, _ => 0

/-- The value `countBufferedValues` owes source `j`: one per item published
but not yet decremented by the consume loop — blocked publishes (counted at
the `+1` before `await publish`), unsettled admitted publishes, buffered
values, and the pair currently held by the consume loop. -/
def cnt (s : St α) (j : Nat) : Int :=
  (((pw s).count j : Nat) : Int) + ((s.inflight.map Prod.fst).count j : Int)
    + ((s.buffer.map Prod.fst).count j : Int) + gotTerm s.cons j

/-- The multiset of sources owning a live pump coroutine (running, or
blocked in `publish`). -/
def coroM (s : St α) : Multiset Nat := ↑(s.pumps.map Prod.fst) + pw s

/-- Master invariant of the fan-in multiplexer. -/
structure InvR (L : Nat) (s : St α) : Prop where
  keys_nodup : (s.counters.map Prod.fst).Nodup
  active_nodup : s.active.Nodup
  coro_nodup : (coroM s).Nodup
  entries_nonzero : ∀ p ∈ s.counters, p.2 ≠ 0
  bound : (aset (s.counters.map Prod.fst) s.active).card ≤ L
  fired_lt : ∀ k, s.intake = .fired k →
    (aset (s.counters.map Prod.fst) s.active).card < L
  fresh : ∀ j, tracks s j → j < s.nextSrc
  held_fresh : ∀ k, s.intake = .waiting k ∨ s.intake = .fired k →
    ¬ tracks s k ∧ k < s.nextSrc
  pumps_active : ∀ j ∈ s.pumps.map Prod.fst, j ∈ s.active
  pw_active : ∀ j ∈ pw s, j ∈ s.active
  counter_val : ∀ j, (Chan.lookupId s.counters j).getD 0 = cnt s j

theorem mem_setEntry {γ : Type} {cs : List (Nat × γ)} {k : Nat} {v : γ}
    {p : Nat × γ} (hp : p ∈ setEntry cs k v) : p = (k, v) ∨ p ∈ cs := by
  induction cs with
  | nil =>
    rw [setEntry] at hp
    rcases List.mem_singleton.mp hp with h
    exact Or.inl h
  | cons q t ih =>
    obtain ⟨i, w⟩ := q
    by_cases hik : i = k
    · rw [setEntry, if_pos hik] at hp
      rcases List.mem_cons.mp hp with h | h
      · exact Or.inl h
      · exact Or.inr (List.mem_cons_of_mem _ h)
    · rw [setEntry, if_neg hik] at hp
      rcases List.mem_cons.mp hp with h | h
      · exact Or.inr (h ▸ List.mem_cons_self _ _)
      · rcases ih h with h2 | h2
        · exact Or.inl h2
        · exact Or.inr (List.mem_cons_of_mem _ h2)

theorem mem_eraseId_subset {γ : Type} {cs : List (Nat × γ)} {k : Nat}
    {p : Nat × γ} (hp : p ∈ Chan.eraseId cs k) : p ∈ cs := by
  induction cs with
  | nil =>
    rw [Chan.eraseId] at hp
    cases hp
  | cons q t ih =>
    obtain ⟨i, w⟩ := q
    by_cases hik : i = k
    · rw [Chan.eraseId, if_pos hik] at hp
      exact List.mem_cons_of_mem _ hp
    · rw [Chan.eraseId, if_neg hik] at hp
      rcases List.mem_cons.mp hp with h | h
      · exact h ▸ List.mem_cons_self _ _
      · exact List.mem_cons_of_mem _ (ih h)

/-- A getD-zero counter read means the key is absent (entries are nonzero). -/
theorem lookup_eq_none_of_getD_zero {cs : List (Nat × Int)}
    (hz : ∀ p ∈ cs, p.2 ≠ 0) {k : Nat}
    (h : (Chan.lookupId cs k).getD 0 = 0) : Chan.lookupId cs k = none := by
  cases hlk : Chan.lookupId cs k with
  | none => rfl
  | some c =>
    rw [hlk] at h
    simp only [Option.getD_some] at h
    exact absurd h (hz (k, c) (Chan.lookupId_mem hlk))

theorem gotTerm_nonneg (c : CState α) (j : Nat) : 0 ≤ gotTerm c j := by
  cases c with
  | cgot i it =>
    rw [gotTerm]
    split <;> norm_num
  | ctop => norm_num [gotTerm]
  | cwait => norm_num [gotTerm]
  | cdone => norm_num [gotTerm]

theorem cnt_nonneg (s : St α) (j : Nat) : 0 ≤ cnt s j := by
  have hg := gotTerm_nonneg s.cons j
  unfold cnt
  have h1 : (0 : Int) ≤ (((pw s).count j : Nat) : Int) := Int.natCast_nonneg _
  have h2 : (0 : Int) ≤ ((s.inflight.map Prod.fst).count j : Int) :=
    Int.natCast_nonneg _
  have h3 : (0 : Int) ≤ ((s.buffer.map Prod.fst).count j : Int) :=
    Int.natCast_nonneg _
  omega

theorem init_invR (L : Nat) : InvR L (init α) := by
  refine ⟨?_, ?_, ?_, ?_, ?_, ?_, ?_, ?_, ?_, ?_, ?_⟩ <;>
    simp [init, aset, coroM, pw, tracks, cnt, gotTerm, Chan.lookupId]

theorem tracks_tap {s : St α} {srcs : List (List α)} {k j : Nat} :
    tracks (tap srcs k s) j ↔ tracks s j ∨ j = k := by
  simp only [tracks, tap, pw, List.map_append, List.map_cons, List.map_nil,
    List.mem_append, List.mem_singleton]
  tauto

theorem coroM_tap (s : St α) (srcs : List (List α)) (k : Nat) :
    coroM (tap srcs k s) = k ::ₘ coroM s := by
  simp only [coroM, tap, pw, List.map_append, List.map_cons, List.map_nil,
    Chan.mcoe_append, Multiset.coe_singleton]
  rw [← Multiset.singleton_add]
  abel

theorem invR_tap {L : Nat} {s : St α} (hI : InvR L s) (srcs : List (List α))
    {k : Nat} (hfr : ¬ tracks s k) (hk : k < s.nextSrc)
    (hint : s.intake = .ready)
    (hcard : (aset (s.counters.map Prod.fst) s.active).card < L) :
    InvR L (tap srcs k s) := by
  obtain ⟨hkn, han, hcn, hez, hb, hfl, hf, hh, hpa, hwa, hcv⟩ := hI
  simp only [tracks, not_or] at hfr
  obtain ⟨hfk, hfa, hfp, hfpw, hfi, hfb, hfc⟩ := hfr
  refine ⟨hkn, ?_, ?_, hez, ?_, ?_, ?_, ?_, ?_, ?_, hcv⟩
  · show (s.active ++ [k]).Nodup
    rw [List.nodup_append]
    refine ⟨han, List.nodup_singleton k, ?_⟩
    intro x hx hxk
    rw [List.mem_singleton] at hxk
    exact hfa (hxk ▸ hx)
  · rw [coroM_tap, Multiset.nodup_cons]
    refine ⟨?_, hcn⟩
    simp only [coroM, Multiset.mem_add, Multiset.mem_coe]
    rintro (h | h)
    · exact hfp h
    · exact hfpw h
  · show (aset (s.counters.map Prod.fst) (s.active ++ [k])).card ≤ L
    rw [aset_append_active]
    have := Finset.card_insert_le k (aset (s.counters.map Prod.fst) s.active)
    omega
  · intro k' h
    rw [show (tap srcs k s).intake = s.intake from rfl, hint] at h
    cases h
  · intro j hj
    rcases tracks_tap.mp hj with h | rfl
    · exact hf j h
    · exact hk
  · intro k' h
    rw [show (tap srcs k s).intake = s.intake from rfl, hint] at h
    rcases h with h | h <;> cases h
  · intro j hj
    show j ∈ s.active ++ [k]
    rw [show (tap srcs k s).pumps = s.pumps ++ [(k, srcs.getD k [])] from rfl,
      List.map_append, List.map_cons, List.map_nil] at hj
    rcases List.mem_append.mp hj with h | h
    · exact List.mem_append.mpr (Or.inl (hpa j h))
    · exact List.mem_append.mpr (Or.inr h)
  · intro j hj
    show j ∈ s.active ++ [k]
    exact List.mem_append.mpr (Or.inl (hwa j hj))

end Race

namespace Race
variable {α : Type}

theorem invR_step_ipull {L : Nat} {oc : Option Nat} {srcs : List (List α)}
    {s s' : St α} (hI : InvR L s)
    (hstep : step L oc srcs s .ipull = some s') : InvR L s' := by
  cases hint : s.intake with
  | ready =>
    simp only [step, hint] at hstep
    split at hstep
    · split at hstep
      · simp only [Option.some.injEq] at hstep
        subst hstep
        refine ⟨hI.keys_nodup, hI.active_nodup, hI.coro_nodup,
          hI.entries_nonzero, hI.bound, (fun k' h => nomatch h), ?_, ?_,
          hI.pumps_active, hI.pw_active, hI.counter_val⟩
        · intro j hj
          exact Nat.lt_succ_of_lt (hI.fresh j hj)
        · intro k' h
          rcases h with h | h
          · cases h
            refine ⟨?_, Nat.lt_succ_self _⟩
            intro ht
            exact absurd (hI.fresh _ ht) (Nat.lt_irrefl _)
          · exact nomatch h
      · simp only [Option.some.injEq] at hstep
        subst hstep
        rename_i hcnt
        have hcard : (aset (s.counters.map Prod.fst) s.active).card < L := by
          rw [← countActive_eq_card hI.keys_nodup hI.active_nodup]
          omega
        have hfr : ¬ tracks s s.nextSrc := fun ht =>
          absurd (hI.fresh _ ht) (Nat.lt_irrefl _)
        have hI1 : InvR L { s with nextSrc := s.nextSrc + 1, intake := IState.ready } :=
          ⟨hI.keys_nodup, hI.active_nodup, hI.coro_nodup, hI.entries_nonzero,
           hI.bound, (fun k' h => nomatch h),
           (fun j hj => Nat.lt_succ_of_lt (hI.fresh j hj)),
           (fun k' h => by rcases h with h | h <;> exact nomatch h),
           hI.pumps_active, hI.pw_active, hI.counter_val⟩
        exact invR_tap hI1 srcs hfr (Nat.lt_succ_self _) rfl hcard
    · simp only [Option.some.injEq] at hstep
      subst hstep
      exact ⟨hI.keys_nodup, hI.active_nodup, hI.coro_nodup, hI.entries_nonzero,
        hI.bound, (fun k' h => nomatch h), hI.fresh,
        (fun k' h => by rcases h with h | h <;> exact nomatch h),
        hI.pumps_active, hI.pw_active, hI.counter_val⟩
  | waiting k => simp [step, hint] at hstep
  | fired k => simp [step, hint] at hstep
  | idone => simp [step, hint] at hstep

theorem invR_step_iresume {L : Nat} {oc : Option Nat} {srcs : List (List α)}
    {s s' : St α} (hI : InvR L s)
    (hstep : step L oc srcs s .iresume = some s') : InvR L s' := by
  cases hint : s.intake with
  | fired k =>
    simp only [step, hint, Option.some.injEq] at hstep
    subst hstep
    obtain ⟨hfr, hk⟩ := hI.held_fresh k (Or.inr hint)
    have hcard := hI.fired_lt k hint
    have hI2 : InvR L { s with intake := IState.ready } :=
      ⟨hI.keys_nodup, hI.active_nodup, hI.coro_nodup, hI.entries_nonzero,
       hI.bound, (fun k' h => nomatch h), hI.fresh,
       (fun k' h => by rcases h with h | h <;> exact nomatch h),
       hI.pumps_active, hI.pw_active, hI.counter_val⟩
    exact invR_tap hI2 srcs hfr hk rfl hcard
  | ready => simp [step, hint] at hstep
  | waiting k => simp [step, hint] at hstep
  | idone => simp [step, hint] at hstep

end Race

namespace Race
variable {α : Type}

theorem invR_wakeOne {L : Nat} {s : St α} (hI : InvR L s) : InvR L (wakeOne s) := by
  cases hp : s.pending with
  | nil =>
    have hw : wakeOne s = s := by unfold wakeOne; rw [hp]
    rw [hw]
    exact hI
  | cons p ps =>
    have hw : wakeOne s = { s with pending := ps, woken := s.woken ++ [p] } := by
      unfold wakeOne; rw [hp]
    rw [hw]
    have hpw : pw { s with pending := ps, woken := s.woken ++ [p] } = pw s := by
      simp only [pw, hp, List.map_append, List.map_cons, List.map_nil,
        Chan.mcoe_append, Multiset.coe_singleton]
      rw [← Multiset.cons_coe, ← Multiset.singleton_add]
      abel
    refine ⟨hI.keys_nodup, hI.active_nodup, ?_, hI.entries_nonzero, hI.bound,
      hI.fired_lt, ?_, ?_, hI.pumps_active, ?_, ?_⟩
    · show Multiset.Nodup (coroM _)
      have hcm : coroM { s with pending := ps, woken := s.woken ++ [p] }
          = coroM s := by
        simp only [coroM]
        rw [hpw]
      rw [hcm]
      exact hI.coro_nodup
    · intro j hj
      apply hI.fresh j
      simpa only [tracks, hpw] using hj
    · intro k' hv
      obtain ⟨hnt, hlt⟩ := hI.held_fresh k' hv
      exact ⟨fun ht => hnt (by simpa only [tracks, hpw] using ht), hlt⟩
    · intro j hj
      rw [hpw] at hj
      exact hI.pw_active j hj
    · intro j
      have hc := hI.counter_val j
      simp only [cnt, hpw]
      simpa only [cnt] using hc

theorem invR_step_presume {L : Nat} {oc : Option Nat} {srcs : List (List α)}
    {s s' : St α} (hI : InvR L s)
    (hstep : step L oc srcs s .presume = some s') : InvR L s' := by
  cases hwk : s.woken with
  | nil => simp [step, hwk] at hstep
  | cons w ws =>
    simp only [step, hwk, Option.some.injEq] at hstep
    subst hstep
    have hpws : pw s = w.src ::ₘ (↑(s.pending.map PWaiter.src)
        + ↑(ws.map PWaiter.src) : Multiset Nat) := by
      simp only [pw, hwk, List.map_cons]
      rw [← Multiset.cons_coe, ← Multiset.singleton_add, ← Multiset.singleton_add]
      abel
    have hwsrc : w.src ∈ pw s := by
      rw [hpws]
      exact Multiset.mem_cons_self _ _
    have hpw' : pw { s with woken := ws, inflight := s.inflight ++ [(w.src, w.item)], pumps := s.pumps ++ [(w.src, w.rest)] } = (↑(s.pending.map PWaiter.src) + ↑(ws.map PWaiter.src) : Multiset Nat) := rfl
    have hcm : coroM { s with woken := ws, inflight := s.inflight ++ [(w.src, w.item)], pumps := s.pumps ++ [(w.src, w.rest)] } = coroM s := by
      simp only [coroM, hpw', List.map_append, List.map_cons, List.map_nil,
        Chan.mcoe_append, Multiset.coe_singleton, hpws]
      rw [← Multiset.singleton_add]
      abel
    have hsub : ∀ j, tracks { s with woken := ws, inflight := s.inflight ++ [(w.src, w.item)], pumps := s.pumps ++ [(w.src, w.rest)] } j → tracks s j := by
      intro j hj
      rcases hj with hv | hv | hv | hv | hv | hv | hv
      · exact Or.inl hv
      · exact Or.inr (Or.inl hv)
      · simp only [List.map_append, List.map_cons, List.map_nil,
          List.mem_append, List.mem_singleton] at hv
        rcases hv with hv | hv
        · exact Or.inr (Or.inr (Or.inl hv))
        · exact Or.inr (Or.inr (Or.inr (Or.inl (hv ▸ hwsrc))))
      · rw [hpw'] at hv
        refine Or.inr (Or.inr (Or.inr (Or.inl ?_)))
        rw [hpws]
        exact Multiset.mem_cons_of_mem hv
      · simp only [List.map_append, List.map_cons, List.map_nil,
          List.mem_append, List.mem_singleton] at hv
        rcases hv with hv | hv
        · exact Or.inr (Or.inr (Or.inr (Or.inr (Or.inl hv))))
        · exact Or.inr (Or.inr (Or.inr (Or.inl (hv ▸ hwsrc))))
      · exact Or.inr (Or.inr (Or.inr (Or.inr (Or.inr (Or.inl hv)))))
      · exact Or.inr (Or.inr (Or.inr (Or.inr (Or.inr (Or.inr hv)))))
    refine ⟨hI.keys_nodup, hI.active_nodup, ?_, hI.entries_nonzero, hI.bound,
      hI.fired_lt, ?_, ?_, ?_, ?_, ?_⟩
    · rw [hcm]
      exact hI.coro_nodup
    · intro j hj
      exact hI.fresh j (hsub j hj)
    · intro k' hv
      obtain ⟨hnt, hlt⟩ := hI.held_fresh k' hv
      exact ⟨fun ht => hnt (hsub k' ht), hlt⟩
    · intro j hj
      simp only [List.map_append, List.map_cons, List.map_nil,
        List.mem_append, List.mem_singleton] at hj
      rcases hj with hv | hv
      · exact hI.pumps_active j hv
      · exact hv ▸ hI.pw_active w.src hwsrc
    · intro j hj
      rw [hpw'] at hj
      apply hI.pw_active j
      rw [hpws]
      exact Multiset.mem_cons_of_mem hj
    · intro j
      have hc := hI.counter_val j
      have he : cnt { s with woken := ws, inflight := s.inflight ++ [(w.src, w.item)], pumps := s.pumps ++ [(w.src, w.rest)] } j = cnt s j := by
        simp only [cnt, hpw', hpws, Multiset.count_cons, List.map_append,
          List.map_cons, List.map_nil, List.count_append, List.count_cons,
          List.count_nil, beq_iff_eq]
        rcases eq_or_ne j w.src with rfl | hj
        · simp only [if_pos rfl]
          push_cast
          ring
        · simp only [if_neg hj, if_neg (Ne.symm hj)]
          push_cast
          ring
      rw [he]
      exact hc

end Race

namespace Race
variable {α : Type}

theorem invR_step_settle {L : Nat} {oc : Option Nat} {srcs : List (List α)}
    {n : Nat} {s s' : St α} (hI : InvR L s)
    (hstep : step L oc srcs s (.settle n) = some s') : InvR L s' := by
  cases hin : s.inflight[n]? with
  | none => simp [step, hin] at hstep
  | some ki =>
    obtain ⟨k, item⟩ := ki
    have hperm : s.inflight.Perm ((k, item) :: s.inflight.eraseIdx n) :=
      getElem?_cons_eraseIdx_perm hin
    have hkmem : k ∈ s.inflight.map Prod.fst :=
      List.mem_map.mpr ⟨(k, item), hperm.symm.subset (List.mem_cons_self _ _), rfl⟩
    have hsubI : ∀ x, x ∈ (s.inflight.eraseIdx n).map Prod.fst
        → x ∈ s.inflight.map Prod.fst :=
      fun x hx => ((List.eraseIdx_sublist s.inflight n).map Prod.fst).subset hx
    have hbuf : InvR L { s with inflight := s.inflight.eraseIdx n, buffer := s.buffer ++ [(k, item)] } := by
      have hsub : ∀ j, tracks { s with inflight := s.inflight.eraseIdx n, buffer := s.buffer ++ [(k, item)] } j → tracks s j := by
        intro j hj
        rcases hj with hv | hv | hv | hv | hv | hv | hv
        · exact Or.inl hv
        · exact Or.inr (Or.inl hv)
        · exact Or.inr (Or.inr (Or.inl hv))
        · exact Or.inr (Or.inr (Or.inr (Or.inl hv)))
        · exact Or.inr (Or.inr (Or.inr (Or.inr (Or.inl (hsubI j hv)))))
        · simp only [List.map_append, List.map_cons, List.map_nil,
            List.mem_append, List.mem_singleton] at hv
          rcases hv with hv | hv
          · exact Or.inr (Or.inr (Or.inr (Or.inr (Or.inr (Or.inl hv)))))
          · exact Or.inr (Or.inr (Or.inr (Or.inr (Or.inl (hv ▸ hkmem)))))
        · exact Or.inr (Or.inr (Or.inr (Or.inr (Or.inr (Or.inr hv)))))
      refine ⟨hI.keys_nodup, hI.active_nodup, hI.coro_nodup, hI.entries_nonzero,
        hI.bound, hI.fired_lt, ?_, ?_, hI.pumps_active, hI.pw_active, ?_⟩
      · exact fun j hj => hI.fresh j (hsub j hj)
      · exact fun k' hv => ⟨fun ht => (hI.held_fresh k' hv).1 (hsub k' ht),
          (hI.held_fresh k' hv).2⟩
      · intro j
        have hc := hI.counter_val j
        have h0 := (hperm.map Prod.fst).count_eq j
        simp only [List.map_cons, List.count_cons, beq_iff_eq] at h0
        have he : cnt { s with inflight := s.inflight.eraseIdx n, buffer := s.buffer ++ [(k, item)] } j = cnt s j := by
          simp only [cnt, pw, h0, List.map_append, List.map_cons, List.map_nil,
            List.count_append, List.count_cons, List.count_nil, beq_iff_eq]
          rcases eq_or_ne k j with rfl | hk
          · simp only [if_pos rfl]
            push_cast
            ring
          · simp only [if_neg hk, if_neg (Ne.symm hk)]
            push_cast
            ring
        rw [he]
        exact hc
    cases hcons : s.cons with
    | cwait =>
      simp only [step, hin, hcons, Option.some.injEq] at hstep
      subst hstep
      refine invR_wakeOne ?_
      have hsub : ∀ j, tracks { s with inflight := s.inflight.eraseIdx n, cons := CState.cgot k item } j → tracks s j := by
        intro j hj
        rcases hj with hv | hv | hv | hv | hv | hv | hv
        · exact Or.inl hv
        · exact Or.inr (Or.inl hv)
        · exact Or.inr (Or.inr (Or.inl hv))
        · exact Or.inr (Or.inr (Or.inr (Or.inl hv)))
        · exact Or.inr (Or.inr (Or.inr (Or.inr (Or.inl (hsubI j hv)))))
        · exact Or.inr (Or.inr (Or.inr (Or.inr (Or.inr (Or.inl hv)))))
        · obtain ⟨it, hit⟩ := hv
          cases hit
          exact Or.inr (Or.inr (Or.inr (Or.inr (Or.inl hkmem))))
      refine ⟨hI.keys_nodup, hI.active_nodup, hI.coro_nodup, hI.entries_nonzero,
        hI.bound, hI.fired_lt, ?_, ?_, hI.pumps_active, hI.pw_active, ?_⟩
      · exact fun j hj => hI.fresh j (hsub j hj)
      · exact fun k' hv => ⟨fun ht => (hI.held_fresh k' hv).1 (hsub k' ht),
          (hI.held_fresh k' hv).2⟩
      · intro j
        have hc := hI.counter_val j
        have h0 := (hperm.map Prod.fst).count_eq j
        simp only [List.map_cons, List.count_cons, beq_iff_eq] at h0
        have he : cnt { s with inflight := s.inflight.eraseIdx n, cons := CState.cgot k item } j = cnt s j := by
          simp only [cnt, pw, h0, hcons, gotTerm]
          rcases eq_or_ne k j with rfl | hk
          · simp only [if_pos rfl]
            push_cast
            ring
          · simp only [if_neg hk, if_neg (Ne.symm hk)]
            push_cast
            ring
        rw [he]
        exact hc
    | ctop =>
      simp only [step, hin, hcons, Option.some.injEq] at hstep
      subst hstep
      exact hcons ▸ hbuf
    | cgot k0 i0 =>
      simp only [step, hin, hcons, Option.some.injEq] at hstep
      subst hstep
      exact hcons ▸ hbuf
    | cdone =>
      simp only [step, hin, hcons, Option.some.injEq] at hstep
      subst hstep
      exact hcons ▸ hbuf

end Race

namespace Race
variable {α : Type}

theorem invR_step_ccheck {L : Nat} {oc : Option Nat} {srcs : List (List α)}
    {s s' : St α} (hI : InvR L s)
    (hstep : step L oc srcs s .ccheck = some s') : InvR L s' := by
  cases hcons : s.cons with
  | ctop =>
    simp only [step, hcons] at hstep
    split at hstep
    · simp only [Option.some.injEq] at hstep
      subst hstep
      refine ⟨hI.keys_nodup, hI.active_nodup, hI.coro_nodup, hI.entries_nonzero,
        hI.bound, hI.fired_lt, ?_, ?_, hI.pumps_active, hI.pw_active, ?_⟩
      · intro j hj
        apply hI.fresh j
        rcases hj with hv | hv | hv | hv | hv | hv | hv
        · exact Or.inl hv
        · exact Or.inr (Or.inl hv)
        · exact Or.inr (Or.inr (Or.inl hv))
        · exact Or.inr (Or.inr (Or.inr (Or.inl hv)))
        · exact Or.inr (Or.inr (Or.inr (Or.inr (Or.inl hv))))
        · exact Or.inr (Or.inr (Or.inr (Or.inr (Or.inr (Or.inl hv)))))
        · obtain ⟨it, hit⟩ := hv
          exact (nomatch hit)
      · intro k' hv
        obtain ⟨hnt, hlt⟩ := hI.held_fresh k' hv
        refine ⟨?_, hlt⟩
        intro ht
        apply hnt
        rcases ht with h2 | h2 | h2 | h2 | h2 | h2 | h2
        · exact Or.inl h2
        · exact Or.inr (Or.inl h2)
        · exact Or.inr (Or.inr (Or.inl h2))
        · exact Or.inr (Or.inr (Or.inr (Or.inl h2)))
        · exact Or.inr (Or.inr (Or.inr (Or.inr (Or.inl h2))))
        · exact Or.inr (Or.inr (Or.inr (Or.inr (Or.inr (Or.inl h2)))))
        · obtain ⟨it, hit⟩ := h2
          exact (nomatch hit)
      · intro j
        have hc := hI.counter_val j
        have he : cnt { s with cons := CState.cdone } j = cnt s j := by
          simp only [cnt, pw, hcons, gotTerm]
        rw [he]
        exact hc
    · cases hb : s.buffer with
      | nil =>
        simp only [hb, Option.some.injEq] at hstep
        subst hstep
        refine ⟨hI.keys_nodup, hI.active_nodup, hI.coro_nodup,
          hI.entries_nonzero, hI.bound, hI.fired_lt, ?_, ?_,
          hI.pumps_active, hI.pw_active, ?_⟩
        · intro j hj
          apply hI.fresh j
          rcases hj with hv | hv | hv | hv | hv | hv | hv
          · exact Or.inl hv
          · exact Or.inr (Or.inl hv)
          · exact Or.inr (Or.inr (Or.inl hv))
          · exact Or.inr (Or.inr (Or.inr (Or.inl hv)))
          · exact Or.inr (Or.inr (Or.inr (Or.inr (Or.inl hv))))
          · simp at hv
          · obtain ⟨it, hit⟩ := hv
            exact (nomatch hit)
        · intro k' hv
          obtain ⟨hnt, hlt⟩ := hI.held_fresh k' hv
          refine ⟨?_, hlt⟩
          intro ht
          apply hnt
          rcases ht with h2 | h2 | h2 | h2 | h2 | h2 | h2
          · exact Or.inl h2
          · exact Or.inr (Or.inl h2)
          · exact Or.inr (Or.inr (Or.inl h2))
          · exact Or.inr (Or.inr (Or.inr (Or.inl h2)))
          · exact Or.inr (Or.inr (Or.inr (Or.inr (Or.inl h2))))
          · simp at h2
          · obtain ⟨it, hit⟩ := h2
            exact (nomatch hit)
        · intro j
          have hc := hI.counter_val j
          have he : cnt { s with buffer := [], cons := CState.cwait } j = cnt s j := by
            simp only [cnt, pw, hb, hcons, gotTerm]
          rw [he]
          exact hc
      | cons p bs =>
        obtain ⟨k, item⟩ := p
        simp only [hb, Option.some.injEq] at hstep
        subst hstep
        refine invR_wakeOne ?_
        have hkb : k ∈ s.buffer.map Prod.fst := by
          rw [hb]
          exact List.mem_map.mpr ⟨(k, item), List.mem_cons_self _ _, rfl⟩
        have hsub : ∀ j, tracks { s with buffer := bs, cons := CState.cgot k item } j → tracks s j := by
          intro j hj
          rcases hj with hv | hv | hv | hv | hv | hv | hv
          · exact Or.inl hv
          · exact Or.inr (Or.inl hv)
          · exact Or.inr (Or.inr (Or.inl hv))
          · exact Or.inr (Or.inr (Or.inr (Or.inl hv)))
          · exact Or.inr (Or.inr (Or.inr (Or.inr (Or.inl hv))))
          · refine Or.inr (Or.inr (Or.inr (Or.inr (Or.inr (Or.inl ?_)))))
            rw [hb, List.map_cons]
            exact List.mem_cons_of_mem _ hv
          · obtain ⟨it, hit⟩ := hv
            cases hit
            exact Or.inr (Or.inr (Or.inr (Or.inr (Or.inr (Or.inl hkb)))))
        refine ⟨hI.keys_nodup, hI.active_nodup, hI.coro_nodup,
          hI.entries_nonzero, hI.bound, hI.fired_lt, ?_, ?_,
          hI.pumps_active, hI.pw_active, ?_⟩
        · exact fun j hj => hI.fresh j (hsub j hj)
        · exact fun k' hv => ⟨fun ht => (hI.held_fresh k' hv).1 (hsub k' ht),
            (hI.held_fresh k' hv).2⟩
        · intro j
          have hc := hI.counter_val j
          have he : cnt { s with buffer := bs, cons := CState.cgot k item } j = cnt s j := by
            simp only [cnt, pw, hb, hcons, gotTerm, List.map_cons,
              List.count_cons, beq_iff_eq]
            rcases eq_or_ne k j with rfl | hk
            · simp only [if_pos rfl]
              push_cast
              ring
            · simp only [if_neg hk, if_neg (Ne.symm hk)]
              push_cast
              ring
          rw [he]
          exact hc
  | cwait => simp [step, hcons] at hstep
  | cgot k0 i0 => simp [step, hcons] at hstep
  | cdone => simp [step, hcons] at hstep

end Race

namespace Race
variable {α : Type}

theorem invR_fireCheck {L : Nat} {oc : Option Nat} {k : Nat} {s : St α}
    (hI : InvR L s)
    (hlt : k ∉ s.active → (Chan.lookupId s.counters k).getD 0 = 0 →
      (aset (s.counters.map Prod.fst) s.active).card < L) :
    InvR L (fireCheck oc k s) := by
  cases hint : s.intake with
  | waiting j =>
    have hfc : fireCheck oc k s = if k ∉ s.active ∧ (Chan.lookupId s.counters k).getD 0 = 0 ∧ capReached oc s = false then { s with intake := IState.fired j } else s := by
      unfold fireCheck
      rw [hint]
    rw [hfc]
    by_cases hcond : k ∉ s.active ∧ (Chan.lookupId s.counters k).getD 0 = 0
        ∧ capReached oc s = false
    · rw [if_pos hcond]
      obtain ⟨hka, hkz, hcap⟩ := hcond
      refine ⟨hI.keys_nodup, hI.active_nodup, hI.coro_nodup, hI.entries_nonzero,
        hI.bound, ?_, hI.fresh, ?_, hI.pumps_active, hI.pw_active,
        hI.counter_val⟩
      · intro k' _
        exact hlt hka hkz
      · intro k' hv
        rcases hv with hv | hv
        · exact (nomatch hv)
        · cases hv
          exact hI.held_fresh j (Or.inl hint)
    · rw [if_neg hcond]
      exact hI
  | ready =>
    have hfc : fireCheck oc k s = s := by
      unfold fireCheck
      rw [hint]
    rw [hfc]
    exact hI
  | fired j =>
    have hfc : fireCheck oc k s = s := by
      unfold fireCheck
      rw [hint]
    rw [hfc]
    exact hI
  | idone =>
    have hfc : fireCheck oc k s = s := by
      unfold fireCheck
      rw [hint]
    rw [hfc]
    exact hI

theorem invR_step_pstep {L : Nat} {oc : Option Nat} {srcs : List (List α)}
    {k : Nat} {s s' : St α} (hI : InvR L s)
    (hstep : step L oc srcs s (.pstep k) = some s') : InvR L s' := by
  cases hlp : Chan.lookupId s.pumps k with
  | none => simp [step, hlp] at hstep
  | some items =>
    have hkp : k ∈ s.pumps.map Prod.fst :=
      List.mem_map.mpr ⟨(k, items), Chan.lookupId_mem hlp, rfl⟩
    have hka : k ∈ s.active := hI.pumps_active k hkp
    have hcoro := hI.coro_nodup
    unfold coroM at hcoro
    rw [Multiset.nodup_add] at hcoro
    obtain ⟨hpn, hpwn, hdisj⟩ := hcoro
    have hpn' : (s.pumps.map Prod.fst).Nodup := by
      simpa using hpn
    have hkpw : k ∉ pw s := by
      intro hk
      exact (Multiset.disjoint_left.mp hdisj) (by simpa using hkp) hk
    cases items with
    | nil =>
      simp only [step, hlp, Option.some.injEq] at hstep
      subst hstep
      have hsub : ∀ j, tracks { s with pumps := Chan.eraseId s.pumps k, active := s.active.erase k } j → tracks s j := by
        intro j hj
        rcases hj with hv | hv | hv | hv | hv | hv | hv
        · exact Or.inl hv
        · exact Or.inr (Or.inl (List.mem_of_mem_erase hv))
        · rw [keys_eraseId] at hv
          exact Or.inr (Or.inr (Or.inl (List.mem_of_mem_erase hv)))
        · exact Or.inr (Or.inr (Or.inr (Or.inl hv)))
        · exact Or.inr (Or.inr (Or.inr (Or.inr (Or.inl hv))))
        · exact Or.inr (Or.inr (Or.inr (Or.inr (Or.inr (Or.inl hv)))))
        · exact Or.inr (Or.inr (Or.inr (Or.inr (Or.inr (Or.inr hv)))))
      have htI : InvR L { s with pumps := Chan.eraseId s.pumps k, active := s.active.erase k } := by
        refine ⟨hI.keys_nodup, ?_, ?_, hI.entries_nonzero, ?_, ?_, ?_, ?_,
          ?_, ?_, ?_⟩
        · exact hI.active_nodup.erase k
        · have hco : coroM { s with pumps := Chan.eraseId s.pumps k, active := s.active.erase k } = ↑((s.pumps.map Prod.fst).erase k) + pw s := by
            simp only [coroM, pw, keys_eraseId]
          rw [hco]
          refine Multiset.nodup_of_le ?_ hI.coro_nodup
          refine add_le_add_right ?_ (pw s)
          exact Multiset.coe_le.mpr (List.erase_sublist _ _).subperm
        · exact le_trans
            (Finset.card_le_card (aset_erase_active_subset _ _ _)) hI.bound
        · intro k' hv
          exact lt_of_le_of_lt
            (Finset.card_le_card (aset_erase_active_subset _ _ _))
            (hI.fired_lt k' hv)
        · exact fun j hj => hI.fresh j (hsub j hj)
        · exact fun k' hv => ⟨fun ht => (hI.held_fresh k' hv).1 (hsub k' ht),
            (hI.held_fresh k' hv).2⟩
        · intro j hj
          rw [keys_eraseId] at hj
          obtain ⟨hne, hmem⟩ := hpn'.mem_erase_iff.mp hj
          exact hI.active_nodup.mem_erase_iff.mpr ⟨hne, hI.pumps_active j hmem⟩
        · intro j hj
          have hne : j ≠ k := fun hv => hkpw (hv ▸ hj)
          exact hI.active_nodup.mem_erase_iff.mpr ⟨hne, hI.pw_active j hj⟩
        · intro j
          have hc := hI.counter_val j
          have he : cnt { s with pumps := Chan.eraseId s.pumps k, active := s.active.erase k } j = cnt s j := by
            simp only [cnt, pw]
          rw [he]
          exact hc
      refine invR_fireCheck htI ?_
      intro _ hkz
      have hknone : Chan.lookupId s.counters k = none :=
        lookup_eq_none_of_getD_zero hI.entries_nonzero hkz
      have hkk : k ∉ s.counters.map Prod.fst := lookupId_eq_none_iff.mp hknone
      have hae : aset (s.counters.map Prod.fst) (s.active.erase k)
          = (aset (s.counters.map Prod.fst) s.active).erase k :=
        aset_erase_active _ hI.active_nodup hkk
      have hkin : k ∈ aset (s.counters.map Prod.fst) s.active := by
        simp only [aset, Finset.mem_union, List.mem_toFinset]
        exact Or.inr hka
      have hlt2 := Finset.card_erase_lt_of_mem hkin
      have hbd := hI.bound
      show (aset (s.counters.map Prod.fst) (s.active.erase k)).card < L
      rw [hae]
      omega
    | cons item rest =>
      have hc0 := hI.counter_val k
      have hcge : (0 : Int) ≤ cnt s k := cnt_nonneg s k
      have hne1 : (Chan.lookupId s.counters k).getD 0 + 1 ≠ 0 := by omega
      have hcb : countBuf s.counters k 1
          = setEntry s.counters k ((Chan.lookupId s.counters k).getD 0 + 1) := by
        simp only [countBuf]
        rw [if_neg hne1]
      have hkeysn : ((setEntry s.counters k
          ((Chan.lookupId s.counters k).getD 0 + 1)).map Prod.fst).Nodup := by
        cases hlk : Chan.lookupId s.counters k with
        | none =>
          rw [keys_setEntry_new hlk, List.nodup_append]
          refine ⟨hI.keys_nodup, List.nodup_singleton k, ?_⟩
          intro x hx hxk
          rw [List.mem_singleton] at hxk
          exact (lookupId_eq_none_iff.mp hlk) (hxk ▸ hx)
        | some c => rw [keys_setEntry_mem hlk]; exact hI.keys_nodup
      have haset : aset ((setEntry s.counters k
          ((Chan.lookupId s.counters k).getD 0 + 1)).map Prod.fst) s.active
          = aset (s.counters.map Prod.fst) s.active := by
        cases hlk : Chan.lookupId s.counters k with
        | none =>
          rw [keys_setEntry_new hlk, aset_append_keys]
          refine Finset.insert_eq_self.mpr ?_
          simp only [aset, Finset.mem_union, List.mem_toFinset]
          exact Or.inr hka
        | some c => rw [keys_setEntry_mem hlk]
      have hkeymem : ∀ j, j ∈ (setEntry s.counters k
          ((Chan.lookupId s.counters k).getD 0 + 1)).map Prod.fst
          → j ∈ s.counters.map Prod.fst ∨ j = k := by
        intro j hj
        obtain ⟨p, hp, hpj⟩ := List.mem_map.mp hj
        rcases mem_setEntry hp with hv | hv
        · right
          rw [← hpj, hv]
        · left
          exact List.mem_map.mpr ⟨p, hv, hpj⟩
      have hzer : ∀ p ∈ setEntry s.counters k
          ((Chan.lookupId s.counters k).getD 0 + 1), p.2 ≠ 0 := by
        intro p hp
        rcases mem_setEntry hp with hv | hv
        · rw [hv]
          exact hne1
        · exact hI.entries_nonzero p hv
      simp only [step, hlp] at hstep
      rw [hcb] at hstep
      split at hstep
      · -- capacity reached: the pump blocks in waitingProducers
        simp only [Option.some.injEq] at hstep
        subst hstep
        have hpwt : pw { s with counters := setEntry s.counters k ((Chan.lookupId s.counters k).getD 0 + 1), pumps := Chan.eraseId s.pumps k, pending := s.pending ++ [⟨k, item, rest⟩] } = k ::ₘ pw s := by
          simp only [pw, List.map_append, List.map_cons, List.map_nil,
            Chan.mcoe_append, Multiset.coe_singleton]
          rw [← Multiset.singleton_add]
          abel
        have hpke : (↑(s.pumps.map Prod.fst) : Multiset Nat)
            = k ::ₘ ↑((s.pumps.map Prod.fst).erase k) := by
          rw [Multiset.cons_coe]
          exact Multiset.coe_eq_coe.mpr (List.perm_cons_erase hkp)
        have hcm : coroM { s with counters := setEntry s.counters k ((Chan.lookupId s.counters k).getD 0 + 1), pumps := Chan.eraseId s.pumps k, pending := s.pending ++ [⟨k, item, rest⟩] } = coroM s := by
          simp only [coroM, pw, keys_eraseId, List.map_append, List.map_cons,
            List.map_nil, Chan.mcoe_append, Multiset.coe_singleton]
          rw [hpke, ← Multiset.singleton_add]
          abel
        have hsub : ∀ j, tracks { s with counters := setEntry s.counters k ((Chan.lookupId s.counters k).getD 0 + 1), pumps := Chan.eraseId s.pumps k, pending := s.pending ++ [⟨k, item, rest⟩] } j → tracks s j := by
          intro j hj
          rcases hj with hv | hv | hv | hv | hv | hv | hv
          · rcases hkeymem j hv with h2 | h2
            · exact Or.inl h2
            · exact Or.inr (Or.inr (Or.inl (h2 ▸ hkp)))
          · exact Or.inr (Or.inl hv)
          · rw [keys_eraseId] at hv
            exact Or.inr (Or.inr (Or.inl (List.mem_of_mem_erase hv)))
          · rw [hpwt] at hv
            rcases Multiset.mem_cons.mp hv with h2 | h2
            · exact Or.inr (Or.inr (Or.inl (h2 ▸ hkp)))
            · exact Or.inr (Or.inr (Or.inr (Or.inl h2)))
          · exact Or.inr (Or.inr (Or.inr (Or.inr (Or.inl hv))))
          · exact Or.inr (Or.inr (Or.inr (Or.inr (Or.inr (Or.inl hv)))))
          · exact Or.inr (Or.inr (Or.inr (Or.inr (Or.inr (Or.inr hv)))))
        refine ⟨hkeysn, hI.active_nodup, ?_, hzer, ?_, ?_, ?_, ?_, ?_, ?_, ?_⟩
        · rw [hcm]
          exact hI.coro_nodup
        · rw [haset]
          exact hI.bound
        · intro k' hv
          rw [haset]
          exact hI.fired_lt k' hv
        · exact fun j hj => hI.fresh j (hsub j hj)
        · exact fun k' hv => ⟨fun ht => (hI.held_fresh k' hv).1 (hsub k' ht),
            (hI.held_fresh k' hv).2⟩
        · intro j hj
          rw [keys_eraseId] at hj
          exact hI.pumps_active j (List.mem_of_mem_erase hj)
        · intro j hj
          rw [hpwt] at hj
          rcases Multiset.mem_cons.mp hj with h2 | h2
          · exact h2 ▸ hka
          · exact hI.pw_active j h2
        · intro j
          rcases eq_or_ne j k with rfl | hjk
          · rw [lookup_setEntry_self]
            simp only [Option.getD_some]
            have hct : cnt { s with counters := setEntry s.counters j ((Chan.lookupId s.counters j).getD 0 + 1), pumps := Chan.eraseId s.pumps j, pending := s.pending ++ [⟨j, item, rest⟩] } j = cnt s j + 1 := by
              simp only [cnt, hpwt, Multiset.count_cons, if_pos rfl]
              push_cast
              ring
            rw [hct, ← hc0]
          · rw [lookup_setEntry_ne hjk]
            have hct : cnt { s with counters := setEntry s.counters k ((Chan.lookupId s.counters k).getD 0 + 1), pumps := Chan.eraseId s.pumps k, pending := s.pending ++ [⟨k, item, rest⟩] } j = cnt s j := by
              simp only [cnt, hpwt, Multiset.count_cons, if_neg hjk]
              push_cast
              ring
            rw [hct]
            exact hI.counter_val j
      · -- admitted: the publish joins the in-flight set
        simp only [Option.some.injEq] at hstep
        subst hstep
        have hpwt : pw { s with counters := setEntry s.counters k ((Chan.lookupId s.counters k).getD 0 + 1), pumps := setEntry s.pumps k rest, inflight := s.inflight ++ [(k, item)] } = pw s := rfl
        have hcm : coroM { s with counters := setEntry s.counters k ((Chan.lookupId s.counters k).getD 0 + 1), pumps := setEntry s.pumps k rest, inflight := s.inflight ++ [(k, item)] } = coroM s := by
          simp only [coroM, pw, keys_setEntry_mem hlp]
        have hsub : ∀ j, tracks { s with counters := setEntry s.counters k ((Chan.lookupId s.counters k).getD 0 + 1), pumps := setEntry s.pumps k rest, inflight := s.inflight ++ [(k, item)] } j → tracks s j := by
          intro j hj
          rcases hj with hv | hv | hv | hv | hv | hv | hv
          · rcases hkeymem j hv with h2 | h2
            · exact Or.inl h2
            · exact Or.inr (Or.inr (Or.inl (h2 ▸ hkp)))
          · exact Or.inr (Or.inl hv)
          · rw [keys_setEntry_mem hlp] at hv
            exact Or.inr (Or.inr (Or.inl hv))
          · rw [hpwt] at hv
            exact Or.inr (Or.inr (Or.inr (Or.inl hv)))
          · simp only [List.map_append, List.map_cons, List.map_nil,
              List.mem_append, List.mem_singleton] at hv
            rcases hv with h2 | h2
            · exact Or.inr (Or.inr (Or.inr (Or.inr (Or.inl h2))))
            · exact Or.inr (Or.inr (Or.inl (h2 ▸ hkp)))
          · exact Or.inr (Or.inr (Or.inr (Or.inr (Or.inr (Or.inl hv)))))
          · exact Or.inr (Or.inr (Or.inr (Or.inr (Or.inr (Or.inr hv)))))
        refine ⟨hkeysn, hI.active_nodup, ?_, hzer, ?_, ?_, ?_, ?_, ?_, ?_, ?_⟩
        · rw [hcm]
          exact hI.coro_nodup
        · rw [haset]
          exact hI.bound
        · intro k' hv
          rw [haset]
          exact hI.fired_lt k' hv
        · exact fun j hj => hI.fresh j (hsub j hj)
        · exact fun k' hv => ⟨fun ht => (hI.held_fresh k' hv).1 (hsub k' ht),
            (hI.held_fresh k' hv).2⟩
        · intro j hj
          rw [keys_setEntry_mem hlp] at hj
          exact hI.pumps_active j hj
        · intro j hj
          rw [hpwt] at hj
          exact hI.pw_active j hj
        · intro j
          rcases eq_or_ne j k with rfl | hjk
          · rw [lookup_setEntry_self]
            simp only [Option.getD_some]
            have hct : cnt { s with counters := setEntry s.counters j ((Chan.lookupId s.counters j).getD 0 + 1), pumps := setEntry s.pumps j rest, inflight := s.inflight ++ [(j, item)] } j = cnt s j + 1 := by
              simp only [cnt, hpwt, List.map_append, List.map_cons, List.map_nil,
                List.count_append, List.count_cons, List.count_nil, beq_iff_eq,
                if_pos rfl]
              push_cast
              ring
            rw [hct, ← hc0]
          · rw [lookup_setEntry_ne hjk]
            have hct : cnt { s with counters := setEntry s.counters k ((Chan.lookupId s.counters k).getD 0 + 1), pumps := setEntry s.pumps k rest, inflight := s.inflight ++ [(k, item)] } j = cnt s j := by
              simp only [cnt, hpwt, List.map_append, List.map_cons, List.map_nil,
                List.count_append, List.count_cons, List.count_nil, beq_iff_eq,
                if_neg hjk, if_neg (Ne.symm hjk)]
              push_cast
              ring
            rw [hct]
            exact hI.counter_val j

end Race

namespace Race
variable {α : Type}

theorem invR_step_cyield {L : Nat} {oc : Option Nat} {srcs : List (List α)}
    {s s' : St α} (hI : InvR L s)
    (hstep : step L oc srcs s .cyield = some s') : InvR L s' := by
  cases hcons : s.cons with
  | cgot k item =>
    simp only [step, hcons, Option.some.injEq] at hstep
    subst hstep
    have hc0 := hI.counter_val k
    have hgt : gotTerm s.cons k = 1 := by
      rw [hcons]
      simp [gotTerm]
    have hg1 : (1 : Int) ≤ cnt s k := by
      have h1 : (0 : Int) ≤ (((pw s).count k : Nat) : Int) := Int.natCast_nonneg _
      have h2 : (0 : Int) ≤ ((s.inflight.map Prod.fst).count k : Int) :=
        Int.natCast_nonneg _
      have h3 : (0 : Int) ≤ ((s.buffer.map Prod.fst).count k : Int) :=
        Int.natCast_nonneg _
      unfold cnt
      rw [hgt]
      omega
    have hlkc : Chan.lookupId s.counters k = some (cnt s k) := by
      cases hlk : Chan.lookupId s.counters k with
      | none =>
        rw [hlk] at hc0
        simp only [Option.getD_none] at hc0
        exfalso
        omega
      | some c =>
        rw [hlk] at hc0
        simp only [Option.getD_some] at hc0
        rw [hc0]
    have hkk : k ∈ s.counters.map Prod.fst :=
      List.mem_map.mpr ⟨(k, cnt s k), Chan.lookupId_mem hlkc, rfl⟩
    by_cases hone : cnt s k - 1 = 0
    · -- the counter drops to zero: the entry is deleted
      have hcb : countBuf s.counters k (-1) = Chan.eraseId s.counters k := by
        simp only [countBuf]
        rw [if_pos (by rw [hc0]; omega)]
      rw [hcb]
      have hsub : ∀ j, tracks { s with counters := Chan.eraseId s.counters k, output := s.output ++ [item], cons := CState.ctop } j → tracks s j := by
        intro j hj
        rcases hj with hv | hv | hv | hv | hv | hv | hv
        · rw [keys_eraseId] at hv
          exact Or.inl (List.mem_of_mem_erase hv)
        · exact Or.inr (Or.inl hv)
        · exact Or.inr (Or.inr (Or.inl hv))
        · exact Or.inr (Or.inr (Or.inr (Or.inl hv)))
        · exact Or.inr (Or.inr (Or.inr (Or.inr (Or.inl hv))))
        · exact Or.inr (Or.inr (Or.inr (Or.inr (Or.inr (Or.inl hv)))))
        · obtain ⟨it, hit⟩ := hv
          exact (nomatch hit)
      have htI : InvR L { s with counters := Chan.eraseId s.counters k, output := s.output ++ [item], cons := CState.ctop } := by
        refine ⟨?_, hI.active_nodup, ?_, ?_, ?_, ?_, ?_, ?_, hI.pumps_active,
          hI.pw_active, ?_⟩
        · rw [keys_eraseId]
          exact hI.keys_nodup.erase k
        · have hcm : coroM { s with counters := Chan.eraseId s.counters k, output := s.output ++ [item], cons := CState.ctop } = coroM s := by
            simp only [coroM, pw]
          rw [hcm]
          exact hI.coro_nodup
        · intro p hp
          exact hI.entries_nonzero p (mem_eraseId_subset hp)
        · rw [keys_eraseId]
          exact le_trans
            (Finset.card_le_card (aset_erase_keys_subset _ _ _)) hI.bound
        · intro k' hv
          rw [keys_eraseId]
          exact lt_of_le_of_lt
            (Finset.card_le_card (aset_erase_keys_subset _ _ _))
            (hI.fired_lt k' hv)
        · exact fun j hj => hI.fresh j (hsub j hj)
        · exact fun k' hv => ⟨fun ht => (hI.held_fresh k' hv).1 (hsub k' ht),
            (hI.held_fresh k' hv).2⟩
        · intro j
          rcases eq_or_ne j k with rfl | hjk
          · rw [lookup_eraseId_self hI.keys_nodup]
            simp only [Option.getD_none]
            have hct : cnt { s with counters := Chan.eraseId s.counters j, output := s.output ++ [item], cons := CState.ctop } j = cnt s j - 1 := by
              simp only [cnt, pw, gotTerm, hcons, if_pos rfl]
              push_cast
              ring
            rw [hct]
            omega
          · rw [lookup_eraseId_ne hjk]
            have hct : cnt { s with counters := Chan.eraseId s.counters k, output := s.output ++ [item], cons := CState.ctop } j = cnt s j := by
              simp only [cnt, pw, gotTerm, hcons, if_neg (Ne.symm hjk)]
            rw [hct]
            exact hI.counter_val j
      refine invR_fireCheck htI ?_
      intro hkact hkz
      have hae : aset ((s.counters.map Prod.fst).erase k) s.active
          = (aset (s.counters.map Prod.fst) s.active).erase k :=
        aset_erase_keys hI.keys_nodup s.active hkact
      have hkin : k ∈ aset (s.counters.map Prod.fst) s.active := by
        simp only [aset, Finset.mem_union, List.mem_toFinset]
        exact Or.inl hkk
      have hlt2 := Finset.card_erase_lt_of_mem hkin
      have hbd := hI.bound
      show (aset ((Chan.eraseId s.counters k).map Prod.fst) s.active).card < L
      rw [keys_eraseId, hae]
      omega
    · -- the decremented counter stays positive: the entry is rewritten
      have hvne : (Chan.lookupId s.counters k).getD 0 + (-1) ≠ 0 := by
        rw [hc0]
        omega
      have hcb : countBuf s.counters k (-1)
          = setEntry s.counters k ((Chan.lookupId s.counters k).getD 0 + (-1)) := by
        simp only [countBuf]
        rw [if_neg hvne]
      rw [hcb]
      have hsub : ∀ j, tracks { s with counters := setEntry s.counters k ((Chan.lookupId s.counters k).getD 0 + (-1)), output := s.output ++ [item], cons := CState.ctop } j → tracks s j := by
        intro j hj
        rcases hj with hv | hv | hv | hv | hv | hv | hv
        · rw [keys_setEntry_mem hlkc] at hv
          exact Or.inl hv
        · exact Or.inr (Or.inl hv)
        · exact Or.inr (Or.inr (Or.inl hv))
        · exact Or.inr (Or.inr (Or.inr (Or.inl hv)))
        · exact Or.inr (Or.inr (Or.inr (Or.inr (Or.inl hv))))
        · exact Or.inr (Or.inr (Or.inr (Or.inr (Or.inr (Or.inl hv)))))
        · obtain ⟨it, hit⟩ := hv
          exact (nomatch hit)
      have htI : InvR L { s with counters := setEntry s.counters k ((Chan.lookupId s.counters k).getD 0 + (-1)), output := s.output ++ [item], cons := CState.ctop } := by
        refine ⟨?_, hI.active_nodup, ?_, ?_, ?_, ?_, ?_, ?_, hI.pumps_active,
          hI.pw_active, ?_⟩
        · rw [keys_setEntry_mem hlkc]
          exact hI.keys_nodup
        · have hcm : coroM { s with counters := setEntry s.counters k ((Chan.lookupId s.counters k).getD 0 + (-1)), output := s.output ++ [item], cons := CState.ctop } = coroM s := by
            simp only [coroM, pw]
          rw [hcm]
          exact hI.coro_nodup
        · intro p hp
          rcases mem_setEntry hp with hv | hv
          · rw [hv]
            exact hvne
          · exact hI.entries_nonzero p hv
        · rw [keys_setEntry_mem hlkc]
          exact hI.bound
        · intro k' hv
          rw [keys_setEntry_mem hlkc]
          exact hI.fired_lt k' hv
        · exact fun j hj => hI.fresh j (hsub j hj)
        · exact fun k' hv => ⟨fun ht => (hI.held_fresh k' hv).1 (hsub k' ht),
            (hI.held_fresh k' hv).2⟩
        · intro j
          rcases eq_or_ne j k with rfl | hjk
          · rw [lookup_setEntry_self]
            simp only [Option.getD_some]
            have hct : cnt { s with counters := setEntry s.counters j ((Chan.lookupId s.counters j).getD 0 + (-1)), output := s.output ++ [item], cons := CState.ctop } j = cnt s j - 1 := by
              simp only [cnt, pw, gotTerm, hcons, if_pos rfl]
              push_cast
              ring
            rw [hct, hc0]
            omega
          · rw [lookup_setEntry_ne hjk]
            have hct : cnt { s with counters := setEntry s.counters k ((Chan.lookupId s.counters k).getD 0 + (-1)), output := s.output ++ [item], cons := CState.ctop } j = cnt s j := by
              simp only [cnt, pw, gotTerm, hcons, if_neg (Ne.symm hjk)]
            rw [hct]
            exact hI.counter_val j
      refine invR_fireCheck htI ?_
      intro _ hkz
      exfalso
      rw [lookup_setEntry_self] at hkz
      simp only [Option.getD_some] at hkz
      exact hvne hkz
  | ctop => simp [step, hcons] at hstep
  | cwait => simp [step, hcons] at hstep
  | cdone => simp [step, hcons] at hstep

end Race

namespace Race
variable {α : Type}

theorem invR_step {L : Nat} {oc : Option Nat} {srcs : List (List α)}
    {s s' : St α} {e : REv} (hI : InvR L s)
    (hstep : step L oc srcs s e = some s') : InvR L s' := by
  cases e with
  | ipull => exact invR_step_ipull hI hstep
  | iresume => exact invR_step_iresume hI hstep
  | pstep k => exact invR_step_pstep hI hstep
  | presume => exact invR_step_presume hI hstep
  | settle n => exact invR_step_settle hI hstep
  | ccheck => exact invR_step_ccheck hI hstep
  | cyield => exact invR_step_cyield hI hstep

theorem run_invR {L : Nat} {oc : Option Nat} {srcs : List (List α)}
    {es : List REv} {s : St α} (hrun : run L oc srcs es = some s) : InvR L s :=
  foldlM_option_inv (P := InvR L)
    (fun _ _ _ hP hstep => invR_step hP hstep) es (init α) s
    (init_invR L) hrun

/-- **C7.** In `_concatConcurrently` with tap limit `tapLimit = L`, in every
reachable state of the fan-in multiplexer `countActiveIterators()` — the
number of currently-active-or-pending-drain sources, i.e. counter keys
together with the active set — never exceeds `L`; in particular at most `L`
sources are concurrently tapped.  Moreover `onNextIterator` is fired (the
suspended intake loop resumed, which is the only way a further source gets
tapped while the loop is suspended) only in states where the count has
dropped strictly below `L`, which `nextIteratorIfNeeded` ensures happens
only after a tapped source is retired: removed from `active` with its
counter of published-but-unconsumed items back at zero. -/
theorem c7_tap_limit_bound {L : Nat} {oc : Option Nat} {srcs : List (List α)}
    {es : List REv} {s : St α} (hrun : run L oc srcs es = some s) :
    countActive s ≤ L ∧ s.active.length ≤ L
      ∧ (∀ k, s.intake = .fired k → countActive s < L) := by
  have hI := run_invR hrun
  have hcac := countActive_eq_card hI.keys_nodup hI.active_nodup
  refine ⟨?_, ?_, ?_⟩
  · rw [hcac]
    exact hI.bound
  · have hsub : s.active.toFinset ⊆ aset (s.counters.map Prod.fst) s.active := by
      intro x hx
      simp only [aset, Finset.mem_union]
      exact Or.inr hx
    have hle := Finset.card_le_card hsub
    rw [List.toFinset_card_of_nodup hI.active_nodup] at hle
    exact le_trans hle hI.bound
  · intro k h
    rw [hcac]
    exact hI.fired_lt k h

/-- Witness for `c7_tap_limit_bound`: two single-item sources at tap
limit 1; the second `ipull` finds the count at the limit and suspends. -/
theorem c7_tap_limit_bound_witness :
    countActive ((run 1 none ([[5], [6]] : List (List Nat)) [REv.ipull, REv.ipull]).get (by rfl)) ≤ 1
      ∧ ((run 1 none ([[5], [6]] : List (List Nat)) [REv.ipull, REv.ipull]).get (by rfl)).active.length ≤ 1
      ∧ (∀ k, ((run 1 none ([[5], [6]] : List (List Nat)) [REv.ipull, REv.ipull]).get (by rfl)).intake = .fired k
          → countActive ((run 1 none ([[5], [6]] : List (List Nat)) [REv.ipull, REv.ipull]).get (by rfl)) < 1) :=
  c7_tap_limit_bound (Option.some_get _).symm

end Race
